import Mathlib

/-!
Verification of the mustach template-processor core (`src/mustach.c`).

The processor is embedded shallowly: C strings become `List Char`, the
output `FILE*` becomes the byte list a call appends, and the provider
interface `struct mustach_itf` becomes a bundle of optional state-passing
functions.  The processor additionally returns a list of instrumentation
events (provider calls, value acquisitions and releases) so that claims
about call discipline can be stated.  The `for (;;)` scan loop of
`process` is given explicit fuel; `none` means the fuel ran out, every
terminating execution of the C loop is `some`.
-/

/-- C byte strings (NUL-free contents). -/
abbrev Str := List Char

/-- C `isspace` on the default locale, as used by the processor. -/
def cIsspace (c : Char) : Bool :=
  c == ' ' || c == '\t' || c == '\n' || c == '\x0b' || c == '\x0c' || c == '\r'

/-- Boolean prefix test used by `strstr`. -/
def isPref : Str → Str → Bool
  | [], _ => true
  | _ :: _, [] => false
  | a :: as, b :: bs => a == b && isPref as bs

/-- C `strstr haystack needle`: first occurrence, returned as the part
before the match and the suffix starting at the match.  An empty needle
matches at the start, as in C. -/
def strstr : Str → Str → Option (Str × Str)
  | [], p => if isPref p [] then some ([], []) else none
  | ch :: s, p =>
    if isPref p (ch :: s) then some ([], ch :: s)
    else
      match strstr s p with
      | none => none
      | some (pre, suf) => some (ch :: pre, suf)

/-- Whitespace trimming of a tag name: the two `while` loops of the
`default:` case of the first `switch` (leading, then trailing). -/
def trimName (s : Str) : Str :=
  ((s.dropWhile cIsspace).reverse.dropWhile cIsspace).reverse

/-- Outcome codes of `mustach.h`, numbered as the error table of
`mustach-tool.c` confirms (index = absolute value). -/
def MUSTACH_OK : Int := 0

def MUSTACH_ERROR_SYSTEM : Int := -1

def MUSTACH_ERROR_UNEXPECTED_END : Int := -2

def MUSTACH_ERROR_EMPTY_TAG : Int := -3

def MUSTACH_ERROR_TAG_TOO_LONG : Int := -4

def MUSTACH_ERROR_BAD_SEPARATORS : Int := -5

def MUSTACH_ERROR_TOO_DEEP : Int := -6

def MUSTACH_ERROR_CLOSING : Int := -7

def MUSTACH_ERROR_BAD_UNESCAPE_TAG : Int := -8

def MUSTACH_ERROR_INVALID_ITF : Int := -9

/-- `#define NAME_LENGTH_MAX 1024`. -/
def NAME_LENGTH_MAX : Nat := 1024

/-- `#define DEPTH_MAX 256`. -/
def DEPTH_MAX : Nat := 256

/-- A resolved value as the provider hands it over through
`struct mustach_sbuf`: the bytes and whether a release callback
(`releasecb`/`freecb`, a union in `mustach.h`) was registered. -/
structure Sbuf where
  value : Str
  rel : Bool
deriving DecidableEq, Repr

/-- The engine's view of a held `mustach_sbuf`: a registered release
callback is identified by the acquisition id the instrumentation gave it. -/
structure ESbuf where
  value : Str
  relId : Option Nat
deriving DecidableEq, Repr

/-- Instrumentation events recording the provider calls the engine makes
and the acquisition/release of values carrying a release callback. -/
inductive Ev where
  | acq (i : Nat)
  | rel (i : Nat)
  | startE (rc : Int)
  | stopE (rc : Int)
  | enterE (name : Str) (rc : Int)
  | nextE (rc : Int)
  | leaveE
  | putE (name : Str) (escape : Bool)
deriving DecidableEq, Repr

/-- `struct mustach_itf`: the capability bundle.  Functions that write to
the output `FILE*` instead return the bytes they write.  `stop?` is the
exit capability the interface documentation describes; `mustach.c`
contains no call to it. -/
structure Itf (σ : Type) where
  start? : Option (σ → Int × σ)
  put? : Option (σ → Str → Bool → Int × σ × Str)
  get? : Option (σ → Str → Int × Sbuf × σ)
  enter : σ → Str → Int × σ
  next : σ → Int × σ
  leave : σ → σ
  partCap? : Option (σ → Str → Int × Sbuf × σ)
  emit? : Option (σ → Str → Bool → Int × σ × Str)
  stop? : Option (σ → Int → σ)

/-- Threaded engine state: the provider closure plus the next fresh
acquisition id for the instrumentation. -/
structure Aux (σ : Type) where
  st : σ
  nid : Nat
deriving DecidableEq, Repr

/-- A section-stack frame of `process` (name and length fuse into the
trimmed name list; `again` is the saved template cursor). -/
structure Frame where
  name : Str
  again : Str
  enabled : Bool
  entered : Int
deriving DecidableEq, Repr

/-- Acquisition of a provider-returned `mustach_sbuf`: a fresh id is
assigned when a release callback is registered. -/
def sbufAcq {σ} (a : Aux σ) (sb : Sbuf) : ESbuf × Aux σ × List Ev :=
  if sb.rel then
    ({ value := sb.value, relId := some a.nid }, { a with nid := a.nid + 1 }, [Ev.acq a.nid])
  else
    ({ value := sb.value, relId := none }, a, [])

/-- `sbuf_release`: invoke the release callback when one is registered. -/
def sbufRel (e : ESbuf) : List Ev :=
  match e.relId with
  | some i => [Ev.rel i]
  | none => []

/-- `emit` of `mustach.c`: the provider's emit callback when present,
otherwise `fwrite(buffer, size, 1, file)`, which fails (returns 0, hence
`MUSTACH_ERROR_SYSTEM`) when `size` is zero and otherwise writes the
bytes unchanged, ignoring the escape flag. -/
def emit {σ} (itf : Itf σ) (a : Aux σ) (bytes : Str) (escape : Bool) :
    Int × Aux σ × Str × List Ev :=
  match itf.emit? with
  | some e =>
    match e a.st bytes escape with
    | (rc, s2, w) => (rc, { a with st := s2 }, w, [])
  | none =>
    if bytes = [] then (MUSTACH_ERROR_SYSTEM, a, [], [])
    else (MUSTACH_OK, a, bytes, [])

/-- `put` of `mustach.c`: the provider's put callback when present, else
`get` followed by `emit` and `sbuf_release`, else invalid interface. -/
def put {σ} (itf : Itf σ) (a : Aux σ) (name : Str) (escape : Bool) :
    Int × Aux σ × Str × List Ev :=
  match itf.put? with
  | some p =>
    match p a.st name escape with
    | (rc, s2, w) => (rc, { a with st := s2 }, w, [Ev.putE name escape])
  | none =>
    match itf.get? with
    | none => (MUSTACH_ERROR_INVALID_ITF, a, [], [Ev.putE name escape])
    | some g =>
      match g a.st name with
      | (rc, sb, s2) =>
        match sbufAcq { a with st := s2 } sb with
        | (esb, a2, d1) =>
          if 0 ≤ rc then
            match emit itf a2 esb.value escape with
            | (rc2, a3, w, d2) =>
              (rc2, a3, w, Ev.putE name escape :: d1 ++ d2 ++ sbufRel esb)
          else (rc, a2, [], Ev.putE name escape :: d1)

/-- `divert` of `mustach.c`: render `put` into a private memory stream;
on success the buffer becomes a value with `free` as release callback.
The memory-stream helpers are modelled as infallible. -/
def divert {σ} (itf : Itf σ) (a : Aux σ) (name : Str) :
    Int × Option Sbuf × Aux σ × List Ev :=
  match put itf a name false with
  | (rc, a2, w, d) =>
    if rc < 0 then (rc, none, a2, d)
    else (MUSTACH_OK, some { value := w, rel := true }, a2, d)

/-- The `partial` helper of `mustach.c` (renamed, Lean keyword): the
provider's partial capability, else `get`, else `divert`; the returned
sbuf is converted to the engine's held form. -/
def partCap {σ} (itf : Itf σ) (a : Aux σ) (name : Str) :
    Int × ESbuf × Aux σ × List Ev :=
  match itf.partCap? with
  | some p =>
    match p a.st name with
    | (rc, sb, s2) =>
      match sbufAcq { a with st := s2 } sb with
      | (esb, a2, d) => (rc, esb, a2, d)
  | none =>
    match itf.get? with
    | some g =>
      match g a.st name with
      | (rc, sb, s2) =>
        match sbufAcq { a with st := s2 } sb with
        | (esb, a2, d) => (rc, esb, a2, d)
    | none =>
      match divert itf a name with
      | (rc, some sb, a2, d) =>
        match sbufAcq a2 sb with
        | (esb, a3, d2) => (rc, esb, a3, d ++ d2)
      | (rc, none, a2, d) => (rc, { value := [], relId := none }, a2, d)

/-- The `case '{'` head of the first `switch` (lines 216-226): count the
leading `\x7d` bytes of the close delimiter; when the close delimiter has a
byte that is not `\x7d`, the tag body must end with an extra `\x7d`, which
is stripped; when it consists solely of `\x7d` bytes, the byte right after
the close delimiter must be `\x7d` and the cursor skips it.  `none` is
`MUSTACH_ERROR_BAD_UNESCAPE_TAG`. -/
def unescape (clstr body tplAfter : Str) : Option (Str × Str) :=
  let l := (clstr.takeWhile (fun ch => ch == '}')).length
  if l < clstr.length then
    if body.getLast? = some '}' then some (body.dropLast, tplAfter) else none
  else
    if tplAfter.head? = some '}' then some (body, tplAfter.drop 1) else none

/-- The `case '='` handler (lines 256-277): strip the two `=` sigils,
take the maximal non-whitespace prefix as the new open delimiter, skip
the following whitespace run, and take everything that remains as the new
close delimiter.  `none` is `MUSTACH_ERROR_BAD_SEPARATORS`. -/
def sepChange (body : Str) : Option (Str × Str) :=
  if body.length < 5 ∨ ¬ body.getLast? = some '=' then none
  else
    let inner := (body.drop 1).dropLast
    let tok := inner.takeWhile (fun ch => !cIsspace ch)
    if tok.length = inner.length then none
    else
      let rest := (inner.drop tok.length).dropWhile cIsspace
      if rest = [] then none
      else some (tok, rest)

/-- The first `switch` of `process` (lines 212-250): classify the tag,
apply the unescape adjustment, strip the sigil, trim the name and check
its length.  For `!` and `=` the body passes through untouched. -/
def firstSwitch (clstr : Str) (c0 : Char) (body tplAfter : Str) :
    Except Int (Char × Str × Str) :=
  if c0 = '!' ∨ c0 = '=' then Except.ok (c0, body, tplAfter)
  else
    match
      (if c0 = '{' then
        match unescape clstr body tplAfter with
        | none => none
        | some (b, t) => some ('&', b, t)
      else some (c0, body, tplAfter)) with
    | none => Except.error MUSTACH_ERROR_BAD_UNESCAPE_TAG
    | some (c, body1, tpl1) =>
      let body2 :=
        if c = '^' ∨ c = '#' ∨ c = '/' ∨ c = '&' ∨ c = '>' ∨ c = ':' then body1.drop 1
        else body1
      let nm := trimName body2
      if NAME_LENGTH_MAX < nm.length then Except.error MUSTACH_ERROR_TAG_TOO_LONG
      else Except.ok (c, nm, tpl1)

/-- The conditional `enter` call of the section-open case: `rc = enabled;
if (rc) { rc = itf->enter(closure, name); if (rc < 0) return rc; }`. -/
def enterCall {σ} (itf : Itf σ) (a : Aux σ) (nm : Str) (enabled : Bool) :
    Int × Aux σ × List Ev :=
  if enabled then
    match itf.enter a.st nm with
    | (rc, s2) => (rc, { a with st := s2 }, [Ev.enterE nm rc])
  else (0, a, [])

/-- The conditional `next` call of the section-close case. -/
def nextCall {σ} (itf : Itf σ) (a : Aux σ) (go : Bool) : Int × Aux σ × List Ev :=
  if go then
    match itf.next a.st with
    | (rc, s2) => (rc, { a with st := s2 }, [Ev.nextE rc])
  else (0, a, [])

/-- The conditional `leave` call of the section-close case. -/
def leaveCall {σ} (itf : Itf σ) (a : Aux σ) (go : Bool) : Aux σ × List Ev :=
  if go then ({ a with st := itf.leave a.st }, [Ev.leaveE])
  else (a, [])

/-- Section opening, `case '^': case '#'` of the second `switch`
(lines 279-298): depth check, conditional `enter`, frame push, and the
`(c == '#') == (rc == 0)` emission gate. -/
def openSection {σ} (itf : Itf σ) (a : Aux σ) (c : Char) (nm tplAfter : Str)
    (stack : List Frame) (enabled : Bool) :
    Int × Option (List Frame × Bool) × Aux σ × List Ev :=
  if stack.length = DEPTH_MAX then (MUSTACH_ERROR_TOO_DEEP, none, a, [])
  else
    match enterCall itf a nm enabled with
    | (rc, a2, d) =>
      if rc < 0 then (rc, none, a2, d)
      else
        (MUSTACH_OK,
         some ({ name := nm, again := tplAfter, enabled := enabled, entered := rc } :: stack,
               if ((c == '#') == (rc == 0)) then false else enabled),
         a2, d)

/-- Section closing, `case '/'` (lines 299-313): pop-check the name,
consult `next` when enabled and entered, rewind on a positive answer,
otherwise `leave` and restore the saved enabled flag. -/
def closeSection {σ} (itf : Itf σ) (a : Aux σ) (nm tplAfter : Str)
    (stack : List Frame) (enabled : Bool) :
    Int × Option (Str × List Frame × Bool) × Aux σ × List Ev :=
  match stack with
  | [] => (MUSTACH_ERROR_CLOSING, none, a, [])
  | top :: rest =>
    if ¬ nm = top.name then (MUSTACH_ERROR_CLOSING, none, a, [])
    else
      match nextCall itf a (enabled && !(top.entered == 0)) with
      | (rc, a2, d) =>
        if rc < 0 then (rc, none, a2, d)
        else if ¬ rc = 0 then (MUSTACH_OK, some (top.again, top :: rest, enabled), a2, d)
        else
          match leaveCall itf a2 (top.enabled && !(top.entered == 0)) with
          | (a3, d2) => (MUSTACH_OK, some (tplAfter, rest, top.enabled), a3, d ++ d2)

/-- The guarded literal emissions of the scan loop: `if (enabled && ...)
emit(...)`; when the guard is false nothing is written and no error can
arise. -/
def preEmit {σ} (itf : Itf σ) (a : Aux σ) (bytes : Str) (go : Bool) :
    Int × Aux σ × Str × List Ev :=
  if go then emit itf a bytes false else (MUSTACH_OK, a, [], [])

/-- Prefix previously produced output bytes and events onto a
continuation's result. -/
def prep {σ} (w0 : Str) (d0 : List Ev) :
    Option (Int × Aux σ × Str × List Ev) → Option (Int × Aux σ × Str × List Ev)
  | none => none
  | some (rc, a, w, d) => some (rc, a, w0 ++ w, d0 ++ d)

/-- The scan loop of `process` (lines 176-337).  Arguments mirror the C
locals: remaining template, current delimiters, section stack, the
enabled flag, and the threaded state.  Each loop iteration consumes one
unit of fuel; partial inclusion recurses with a fresh stack. -/
def processLoop {σ} (itf : Itf σ) :
    Nat → Str → Str → Str → List Frame → Bool → Aux σ →
    Option (Int × Aux σ × Str × List Ev)
  | 0, _, _, _, _, _, _ => none
  | fuel + 1, template, opstr, clstr, stack, enabled, a =>
    match strstr template opstr with
    | none =>
      match preEmit itf a template (enabled && !(template == [])) with
      | (rc, a2, w, d) =>
        if rc < 0 then some (rc, a2, w, d)
        else some (if ¬ stack = [] then MUSTACH_ERROR_UNEXPECTED_END else MUSTACH_OK, a2, w, d)
    | some (pre, atOp) =>
      match preEmit itf a pre (enabled && !(pre == [])) with
      | (rc0, a0, w0, d0) =>
        if rc0 < 0 then some (rc0, a0, w0, d0)
        else
          let beg := atOp.drop opstr.length
          match strstr beg clstr with
          | none => some (MUSTACH_ERROR_UNEXPECTED_END, a0, w0, d0)
          | some (body, atCl) =>
            let tplAfter := atCl.drop clstr.length
            match firstSwitch clstr (beg.headD (Char.ofNat 0)) body tplAfter with
            | Except.error rc => some (rc, a0, w0, d0)
            | Except.ok (c, nm, tpl2) =>
              match c with
              | '!' => prep w0 d0 (processLoop itf fuel tpl2 opstr clstr stack enabled a0)
              | '=' =>
                match sepChange nm with
                | none => some (MUSTACH_ERROR_BAD_SEPARATORS, a0, w0, d0)
                | some (op2, cl2) =>
                  prep w0 d0 (processLoop itf fuel tpl2 op2 cl2 stack enabled a0)
              | '^' =>
                match openSection itf a0 c nm tpl2 stack enabled with
                | (rc, none, a2, d1) => some (rc, a2, w0, d0 ++ d1)
                | (_, some (stack2, en2), a2, d1) =>
                  prep w0 (d0 ++ d1) (processLoop itf fuel tpl2 opstr clstr stack2 en2 a2)
              | '#' =>
                match openSection itf a0 c nm tpl2 stack enabled with
                | (rc, none, a2, d1) => some (rc, a2, w0, d0 ++ d1)
                | (_, some (stack2, en2), a2, d1) =>
                  prep w0 (d0 ++ d1) (processLoop itf fuel tpl2 opstr clstr stack2 en2 a2)
              | '/' =>
                match closeSection itf a0 nm tpl2 stack enabled with
                | (rc, none, a2, d1) => some (rc, a2, w0, d0 ++ d1)
                | (_, some (tpl3, stack2, en2), a2, d1) =>
                  prep w0 (d0 ++ d1) (processLoop itf fuel tpl3 opstr clstr stack2 en2 a2)
              | '>' =>
                if enabled then
                  match partCap itf a0 nm with
                  | (rc, esb, a2, d1) =>
                    if rc = 0 then
                      match processLoop itf fuel esb.value opstr clstr [] true a2 with
                      | none => none
                      | some (rc2, a3, w1, d2) =>
                        if rc2 < 0 then
                          some (rc2, a3, w0 ++ w1, d0 ++ d1 ++ d2 ++ sbufRel esb)
                        else
                          prep (w0 ++ w1) (d0 ++ d1 ++ d2 ++ sbufRel esb)
                            (processLoop itf fuel tpl2 opstr clstr stack enabled a3)
                    else if rc < 0 then some (rc, a2, w0, d0 ++ d1)
                    else prep w0 (d0 ++ d1) (processLoop itf fuel tpl2 opstr clstr stack enabled a2)
                else prep w0 d0 (processLoop itf fuel tpl2 opstr clstr stack enabled a0)
              | _ =>
                if enabled then
                  match put itf a0 nm (!(c == '&')) with
                  | (rc, a2, w1, d1) =>
                    if rc < 0 then some (rc, a2, w0 ++ w1, d0 ++ d1)
                    else
                      prep (w0 ++ w1) (d0 ++ d1)
                        (processLoop itf fuel tpl2 opstr clstr stack enabled a2)
                else prep w0 d0 (processLoop itf fuel tpl2 opstr clstr stack enabled a0)

/-- Default open delimiter. -/
def dfltOp : Str := ['{', '{']

/-- Default close delimiter. -/
def dfltCl : Str := ['}', '}']

/-- `process` proper: the loop started with fresh stack, enabled
emission, and the given delimiters. -/
def process {σ} (itf : Itf σ) (fuel : Nat) (template opstr clstr : Str) (a : Aux σ) :
    Option (Int × Aux σ × Str × List Ev) :=
  processLoop itf fuel template opstr clstr [] true a

/-- `fmustach` (lines 339-345): optional `start`, then `process` with the
default delimiters.  A nonzero `start` result short-circuits.  No other
call follows the processor: the function returns its outcome directly. -/
def fmustach {σ} (itf : Itf σ) (fuel : Nat) (template : Str) (s : σ) :
    Option (Int × Aux σ × Str × List Ev) :=
  match itf.start? with
  | some f =>
    match f s with
    | (rc, s2) =>
      if rc = 0 then
        prep [] [Ev.startE rc] (process itf fuel template dfltOp dfltCl { st := s2, nid := 0 })
      else some (rc, { st := s2, nid := 0 }, [], [Ev.startE rc])
  | none => process itf fuel template dfltOp dfltCl { st := s, nid := 0 }

/-- `mustach` (lines 363-383), the buffered entry point.  `openOk` models
whether `open_memstream` succeeds; when it fails the function returns
`MUSTACH_ERROR_SYSTEM` with `*result` already `NULL` but `*size` still
holding the caller's prior value `size0`, since no assignment to it runs.
On a processor error `memfile_abort` stores `NULL` and `0`; on success
`memfile_close` (modelled infallible) yields the buffer and its length. -/
def mustach {σ} (itf : Itf σ) (fuel : Nat) (template : Str) (s : σ)
    (openOk : Bool) (size0 : Nat) : Option (Int × Option Str × Nat) :=
  if openOk then
    match fmustach itf fuel template s with
    | none => none
    | some (rc, _, w, _) =>
      if rc < 0 then some (rc, none, 0)
      else some (MUSTACH_OK, some w, w.length)
  else some (MUSTACH_ERROR_SYSTEM, none, size0)

/-! ## Trace instrumentation: counting, balance, call discipline -/

/-- Occurrence count of an event in a trace. -/
def cnt (e : Ev) : List Ev → Nat
  | [] => 0
  | x :: l => (if x = e then 1 else 0) + cnt e l

/-- Indicator of the half-open id interval `[a, b)`. -/
def ind (a b i : Nat) : Nat := if a ≤ i ∧ i < b then 1 else 0

/-- A trace is balanced over the id interval `[a, b)`: every id in the
interval is acquired exactly once and released exactly once, and no id
outside it is touched. -/
def Bal (d : List Ev) (a b : Nat) : Prop :=
  a ≤ b ∧ ∀ i, cnt (Ev.acq i) d = ind a b i ∧ cnt (Ev.rel i) d = ind a b i

/-- A trace with no acquisition or release events at all. -/
def NoAR (d : List Ev) : Prop :=
  ∀ i, cnt (Ev.acq i) d = 0 ∧ cnt (Ev.rel i) d = 0

/-- A trace containing no `stop` call. -/
def stopFree (d : List Ev) : Prop := ∀ rc, Ev.stopE rc ∉ d

/-- Well-behaved resolution capability, as the interface documents it:
never a positive result, and no release callback handed over on error. -/
def WfGet {σ} (g : σ → Str → Int × Sbuf × σ) : Prop :=
  ∀ s n, (g s n).1 ≤ 0 ∧ ((g s n).1 < 0 → (g s n).2.1.rel = false)

/-- Provider contract for the release-discipline theorem: `get` and the
partial capability follow their documented result convention. -/
def WfItf {σ} (itf : Itf σ) : Prop :=
  (∀ g, itf.get? = some g → WfGet g) ∧ (∀ p, itf.partCap? = some p → WfGet p)

/-! ## Per-helper trace facts -/

/-- Ids of acquisition events, in order. -/
def acqIds (d : List Ev) : List Nat :=
  d.filterMap (fun e => match e with | Ev.acq i => some i | _ => none)

/-- Ids of release events, in order. -/
def relIds (d : List Ev) : List Nat :=
  d.filterMap (fun e => match e with | Ev.rel i => some i | _ => none)

/-- Number of `stop` invocations recorded in a trace. -/
def stopCount (d : List Ev) : Nat :=
  (d.filter (fun e => match e with | Ev.stopE _ => true | _ => false)).length

/-- Contract-abiding provider whose `get` hands over a value with a
release callback; used as the concrete instance for the release claim. -/
def relProv : Itf Unit :=
  { start? := none, put? := none,
    get? := some (fun s _n => (0, { value := ['A'], rel := true }, s)),
    enter := fun s _n => (0, s), next := fun s => (0, s), leave := fun s => s,
    partCap? := none, emit? := none, stop? := none }

/-- Provider supplying the optional `stop` capability (and nothing else
beyond the section callbacks); the engine never calls it. -/
def stopProv : Itf Unit :=
  { start? := none, put? := none, get? := none,
    enter := fun s _n => (0, s), next := fun s => (0, s), leave := fun s => s,
    partCap? := none, emit? := none, stop? := some (fun s _rc => s) }

/-- Provider mapping every name to the single byte `&`, with no release
callback, under the default emitter. -/
def ampProv : Itf Unit :=
  { start? := none, put? := none,
    get? := some (fun s _n => (0, { value := ['&'], rel := false }, s)),
    enter := fun s _n => (0, s), next := fun s => (0, s), leave := fun s => s,
    partCap? := none, emit? := none, stop? := none }

/-- Provider whose `put` capability writes a fixed byte; the recorded
`putE` event exposes the escape flag the processor passes down. -/
def recProv : Itf Unit :=
  { start? := none,
    put? := some (fun s _n _esc => (0, s, ['P'])),
    get? := none,
    enter := fun s _n => (0, s), next := fun s => (0, s), leave := fun s => s,
    partCap? := none, emit? := none, stop? := none }

/-- Section-iterating provider: `enter` always enters, `next` answers
positively while the counter is nonzero and decrements it. -/
def iterProv : Itf Nat :=
  { start? := none, put? := none, get? := none,
    enter := fun s _n => (1, s),
    next := fun s => if s = 0 then (0, 0) else (1, s - 1),
    leave := fun s => s,
    partCap? := none, emit? := none, stop? := none }

/-- `k` concatenated copies of a list. -/
def repL {α : Type} : Nat → List α → List α
  | 0, _ => []
  | k + 1, l => l ++ repL k l

/-- The template `A{{#s}}b{{/s}}C`. -/
def tpl7 : Str :=
  ['A', '{', '{', '#', 's', '}', '}', 'b', '{', '{', '/', 's', '}', '}', 'C']

/-- The iteration body: cursor just past the opening tag. -/
def bTpl7 : Str := ['b', '{', '{', '/', 's', '}', '}', 'C']

/-- The frame the opening `{{#s}}` pushes. -/
def fr7 : Frame := { name := ['s'], again := bTpl7, enabled := true, entered := 1 }

/-- Always-entering, never-iterating provider for the nesting bound. -/
def nestProv : Itf Unit :=
  { start? := none, put? := none, get? := none,
    enter := fun s _n => (1, s),
    next := fun s => (0, s),
    leave := fun s => s,
    partCap? := none, emit? := none, stop? := none }

/-- The opening tag of the nesting templates. -/
def opTag : Str := ['{', '{', '#', 's', '}', '}']

/-- The closing tag of the nesting templates. -/
def clTag : Str := ['{', '{', '/', 's', '}', '}']

/-- `k` nested opening tags. -/
def opsN : Nat → Str
  | 0 => []
  | k + 1 => opTag ++ opsN k

/-- `k` nested closing tags. -/
def clsN : Nat → Str
  | 0 => []
  | k + 1 => clsN k ++ clTag

/-- A template with `k` well-nested sections. -/
def nestT (k : Nat) : Str := opsN k ++ clsN k

/-- Events of a full walk of `k` well-nested sections. -/
def devN : Nat → List Ev
  | 0 => []
  | k + 1 => Ev.enterE ['s'] 1 :: (devN k ++ [Ev.nextE 0, Ev.leaveE])

/-- Events of entering `j` sections before hitting the depth limit. -/
def devO : Nat → List Ev
  | 0 => []
  | j + 1 => Ev.enterE ['s'] 1 :: devO j

/-- Continuation of the scan after dispatching on an `openSection`
result (the `'#'` arm of the loop, specialised to empty plain text). -/
def openCont {σ} (itf : Itf σ) (fuel : Nat) (X : Str)
    (r : Int × Option (List Frame × Bool) × Aux σ × List Ev) :
    Option (Int × Aux σ × Str × List Ev) :=
  match r with
  | (rc, none, a2, d1) => some (rc, a2, [], [] ++ d1)
  | (_, some (stack2, en2), a2, d1) =>
    prep [] ([] ++ d1) (processLoop itf fuel X dfltOp dfltCl stack2 en2 a2)

/-- Continuation of the scan after dispatching on a `closeSection`
result (the `'/'` arm of the loop, specialised to empty plain text). -/
def closeCont {σ} (itf : Itf σ) (fuel : Nat)
    (r : Int × Option (Str × List Frame × Bool) × Aux σ × List Ev) :
    Option (Int × Aux σ × Str × List Ev) :=
  match r with
  | (rc, none, a2, d1) => some (rc, a2, [], [] ++ d1)
  | (_, some (tpl3, stack2, en2), a2, d1) =>
    prep [] ([] ++ d1) (processLoop itf fuel tpl3 dfltOp dfltCl stack2 en2 a2)

@[simp] theorem cnt_nil (e : Ev) : cnt e [] = 0 := rfl

@[simp] theorem cnt_cons (e x : Ev) (l : List Ev) :
    cnt e (x :: l) = (if x = e then 1 else 0) + cnt e l := rfl

@[simp] theorem cnt_append (e : Ev) (l1 l2 : List Ev) :
    cnt e (l1 ++ l2) = cnt e l1 + cnt e l2 := by
  induction l1 with
  | nil => simp
  | cons x l ih => simp [ih]; omega

theorem stopFree_nil : stopFree [] := by intro rc h; cases h

theorem stopFree_append {d1 d2 : List Ev} (h1 : stopFree d1) (h2 : stopFree d2) :
    stopFree (d1 ++ d2) := by
  intro rc h
  rcases List.mem_append.mp h with h | h
  · exact h1 rc h
  · exact h2 rc h

theorem stopFree_cons {e : Ev} {d : List Ev} (he : ∀ rc, ¬ e = Ev.stopE rc)
    (h : stopFree d) : stopFree (e :: d) := by
  intro rc hm
  rcases List.mem_cons.mp hm with hm | hm
  · exact he rc hm.symm
  · exact h rc hm

theorem NoAR.bal {d : List Ev} (h : NoAR d) (a : Nat) : Bal d a a := by
  refine ⟨le_refl a, fun i => ?_⟩
  have := h i
  simp only [ind]
  constructor <;> (rw [if_neg (by omega)]; omega)

theorem NoAR.nil : NoAR [] := fun _ => ⟨rfl, rfl⟩

theorem noAR_append {d1 d2 : List Ev} (h1 : NoAR d1) (h2 : NoAR d2) : NoAR (d1 ++ d2) := by
  intro i
  have := h1 i; have := h2 i
  simp only [cnt_append]
  omega

theorem Bal.append {d1 d2 : List Ev} {a b c : Nat}
    (h1 : Bal d1 a b) (h2 : Bal d2 b c) : Bal (d1 ++ d2) a c := by
  obtain ⟨hab, h1⟩ := h1
  obtain ⟨hbc, h2⟩ := h2
  refine ⟨le_trans hab hbc, fun i => ?_⟩
  obtain ⟨x1, y1⟩ := h1 i
  obtain ⟨x2, y2⟩ := h2 i
  simp only [cnt_append, x1, y1, x2, y2, ind]
  constructor <;> (split_ifs <;> omega)

@[simp] theorem cnt_sing_aa (i j : Nat) : cnt (Ev.acq i) [Ev.acq j] = if j = i then 1 else 0 := by
  simp [cnt]

@[simp] theorem cnt_sing_ar (i j : Nat) : cnt (Ev.acq i) [Ev.rel j] = 0 := by
  simp [cnt]

@[simp] theorem cnt_sing_ra (i j : Nat) : cnt (Ev.rel i) [Ev.acq j] = 0 := by
  simp [cnt]

@[simp] theorem cnt_sing_rr (i j : Nat) : cnt (Ev.rel i) [Ev.rel j] = if j = i then 1 else 0 := by
  simp [cnt]

@[simp] theorem Aux_nid_mk {σ} (s : σ) (n : Nat) : (Aux.mk s n).nid = n := rfl

@[simp] theorem Aux_st_mk {σ} (s : σ) (n : Nat) : (Aux.mk s n).st = s := rfl

/-- Acquisition of id `i`, a balanced interior over `[i+1, b)`, then the
release of `i`, is balanced over `[i, b)`. -/
theorem Bal.wrap {d : List Ev} {i b : Nat} (h : Bal d (i + 1) b) :
    Bal (Ev.acq i :: (d ++ [Ev.rel i])) i b := by
  obtain ⟨hb, h⟩ := h
  refine ⟨by omega, fun j => ?_⟩
  obtain ⟨x, y⟩ := h j
  have e1 : cnt (Ev.acq j) (Ev.acq i :: (d ++ [Ev.rel i]))
      = (if i = j then 1 else 0) + cnt (Ev.acq j) d := by
    simp [cnt_cons, cnt_append]
    try omega
  have e2 : cnt (Ev.rel j) (Ev.acq i :: (d ++ [Ev.rel i]))
      = (if i = j then 1 else 0) + cnt (Ev.rel j) d := by
    simp [cnt_cons, cnt_append]
    try omega
  rw [e1, e2, x, y]
  simp only [ind]
  constructor <;> (split_ifs <;> omega)

theorem emit_spec {σ} {itf : Itf σ} {a : Aux σ} {bytes : Str} {esc : Bool}
    {rc : Int} {a2 : Aux σ} {w : Str} {d : List Ev}
    (h : emit itf a bytes esc = (rc, a2, w, d)) : a2.nid = a.nid ∧ d = [] := by
  unfold emit at h
  cases he : itf.emit? with
  | some e =>
    rw [he] at h
    simp only at h
    rcases hev : e a.st bytes esc with ⟨rc1, s1, w1⟩
    rw [hev] at h
    simp only at h
    cases h
    exact ⟨rfl, rfl⟩
  | none =>
    rw [he] at h
    simp only at h
    by_cases hb : bytes = []
    · rw [if_pos hb] at h
      cases h
      exact ⟨rfl, rfl⟩
    · rw [if_neg hb] at h
      cases h
      exact ⟨rfl, rfl⟩

theorem sbufAcq_rel {σ} {a : Aux σ} {sb : Sbuf} {esb : ESbuf} {a2 : Aux σ} {d : List Ev}
    (h : sbufAcq a sb = (esb, a2, d)) (hr : sb.rel = true) :
    esb = { value := sb.value, relId := some a.nid } ∧
    a2 = { a with nid := a.nid + 1 } ∧ d = [Ev.acq a.nid] := by
  unfold sbufAcq at h
  rw [if_pos hr] at h
  cases h
  exact ⟨rfl, rfl, rfl⟩

theorem sbufAcq_norel {σ} {a : Aux σ} {sb : Sbuf} {esb : ESbuf} {a2 : Aux σ} {d : List Ev}
    (h : sbufAcq a sb = (esb, a2, d)) (hr : sb.rel = false) :
    esb = { value := sb.value, relId := none } ∧ a2 = a ∧ d = [] := by
  unfold sbufAcq at h
  rw [if_neg (by simp [hr])] at h
  cases h
  exact ⟨rfl, rfl, rfl⟩

theorem put_stopFree {σ} {itf : Itf σ} {a : Aux σ} {nm : Str} {esc : Bool}
    {rc : Int} {a2 : Aux σ} {w : Str} {d : List Ev}
    (h : put itf a nm esc = (rc, a2, w, d)) : stopFree d := by
  unfold put at h
  cases hp : itf.put? with
  | some p =>
    rw [hp] at h
    simp only at h
    rcases hpv : p a.st nm esc with ⟨rc1, s1, w1⟩
    rw [hpv] at h
    simp only at h
    cases h
    exact stopFree_cons (by intro r hc; cases hc) stopFree_nil
  | none =>
    rw [hp] at h
    simp only at h
    cases hg : itf.get? with
    | none =>
      rw [hg] at h
      simp only at h
      cases h
      exact stopFree_cons (by intro r hc; cases hc) stopFree_nil
    | some g =>
      rw [hg] at h
      simp only at h
      rcases hgv : g a.st nm with ⟨rc1, sb, s1⟩
      rw [hgv] at h
      simp only at h
      rcases hacq : sbufAcq { a with st := s1 } sb with ⟨esb, a9, d1⟩
      rw [hacq] at h
      simp only at h
      have hd1f : stopFree d1 := by
        cases hrel : sb.rel with
        | true =>
          rw [(sbufAcq_rel hacq hrel).2.2]
          exact stopFree_cons (by intro r hc; cases hc) stopFree_nil
        | false =>
          rw [(sbufAcq_norel hacq hrel).2.2]
          exact stopFree_nil
      split at h
      · rcases hemit : emit itf a9 esb.value esc with ⟨rc2, a3, w2, d2⟩
        rw [hemit] at h
        simp only at h
        cases h
        obtain ⟨-, hd2⟩ := emit_spec hemit
        subst hd2
        refine stopFree_cons (by intro r hc; cases hc) ?_
        refine stopFree_append (stopFree_append hd1f stopFree_nil) ?_
        unfold sbufRel
        cases esb.relId with
        | some i => exact stopFree_cons (by intro r hc; cases hc) stopFree_nil
        | none => exact stopFree_nil
      · cases h
        exact stopFree_cons (by intro r hc; cases hc) hd1f

theorem put_bal {σ} {itf : Itf σ} {a : Aux σ} {nm : Str} {esc : Bool}
    {rc : Int} {a2 : Aux σ} {w : Str} {d : List Ev}
    (hwf : ∀ g, itf.get? = some g → WfGet g)
    (h : put itf a nm esc = (rc, a2, w, d)) : Bal d a.nid a2.nid := by
  unfold put at h
  cases hp : itf.put? with
  | some p =>
    rw [hp] at h
    simp only at h
    rcases hpv : p a.st nm esc with ⟨rc1, s1, w1⟩
    rw [hpv] at h
    simp only at h
    cases h
    exact NoAR.bal (by intro i; simp [cnt]) _
  | none =>
    rw [hp] at h
    simp only at h
    cases hg : itf.get? with
    | none =>
      rw [hg] at h
      simp only at h
      cases h
      exact NoAR.bal (by intro i; simp [cnt]) _
    | some g =>
      rw [hg] at h
      simp only at h
      have hwg := (hwf g hg) a.st nm
      rcases hgv : g a.st nm with ⟨rc1, sb, s1⟩
      rw [hgv] at h hwg
      simp only at h hwg
      rcases hacq : sbufAcq { a with st := s1 } sb with ⟨esb, a9, d1⟩
      rw [hacq] at h
      simp only at h
      split at h
      · rcases hemit : emit itf a9 esb.value esc with ⟨rc2, a3, w2, d2⟩
        rw [hemit] at h
        simp only at h
        cases h
        obtain ⟨hnid, hd2⟩ := emit_spec hemit
        subst hd2
        cases hrel : sb.rel with
        | true =>
          obtain ⟨he, ha, hd⟩ := sbufAcq_rel hacq hrel
          subst he ha hd
          rw [hnid]
          simp only [Aux_nid_mk]
          refine ⟨by omega, fun i => ?_⟩
          simp only [sbufRel, List.append_nil, cnt_append, cnt_cons, cnt_nil, cnt, ind]
          constructor <;> (split_ifs <;> (simp_all; try omega))
        | false =>
          obtain ⟨he, ha, hd⟩ := sbufAcq_norel hacq hrel
          subst he ha hd
          rw [hnid]
          exact NoAR.bal (by intro i; simp [cnt, sbufRel]) _
      · cases h
        have hrel : sb.rel = false := hwg.2 (by omega)
        obtain ⟨he, ha, hd⟩ := sbufAcq_norel hacq hrel
        subst ha hd
        exact NoAR.bal (by intro i; simp [cnt]) _

theorem divert_spec {σ} {itf : Itf σ} {a : Aux σ} {nm : Str}
    {rc : Int} {osb : Option Sbuf} {a2 : Aux σ} {d : List Ev}
    (h : divert itf a nm = (rc, osb, a2, d)) :
    stopFree d ∧ rc ≤ 0 ∧ (rc < 0 → osb = none) ∧
    (∀ sb, osb = some sb → sb.rel = true ∧ rc = 0) ∧
    ((∀ g, itf.get? = some g → WfGet g) → Bal d a.nid a2.nid) := by
  unfold divert at h
  rcases hput : put itf a nm false with ⟨rc1, a9, w1, d1⟩
  rw [hput] at h
  simp only at h
  split at h
  · cases h
    refine ⟨put_stopFree hput, by omega, fun _ => rfl, ?_, fun hwf => put_bal hwf hput⟩
    intro sb hsb
    cases hsb
  · cases h
    refine ⟨put_stopFree hput, le_refl 0, by intro hc; simp [MUSTACH_OK] at hc, ?_, fun hwf => put_bal hwf hput⟩
    intro sb hsb
    cases hsb
    exact ⟨rfl, rfl⟩

theorem partCap_spec {σ} {itf : Itf σ} {a : Aux σ} {nm : Str}
    {rc : Int} {esb : ESbuf} {a2 : Aux σ} {d : List Ev}
    (hwf : WfItf itf)
    (h : partCap itf a nm = (rc, esb, a2, d)) :
    stopFree d ∧ rc ≤ 0 ∧
    (esb.relId = none → Bal d a.nid a2.nid) ∧
    (∀ i, esb.relId = some i → rc = 0 ∧ a2.nid = i + 1 ∧
      ∃ d0, d = d0 ++ [Ev.acq i] ∧ Bal d0 a.nid i) := by
  unfold partCap at h
  cases hp : itf.partCap? with
  | some p =>
    rw [hp] at h
    simp only at h
    have hwg := (hwf.2 p hp) a.st nm
    rcases hpv : p a.st nm with ⟨rc1, sb, s1⟩
    rw [hpv] at h hwg
    simp only at h hwg
    rcases hacq : sbufAcq { a with st := s1 } sb with ⟨esb1, a9, d1⟩
    rw [hacq] at h
    simp only at h
    cases h
    cases hrel : sb.rel with
    | true =>
      obtain ⟨he, ha, hd⟩ := sbufAcq_rel hacq hrel
      subst he ha hd
      refine ⟨stopFree_cons (by intro r hc; cases hc) stopFree_nil, hwg.1, ?_, ?_⟩
      · intro hnone
        cases hnone
      · intro i hi
        injection hi with hi
        subst hi
        have : ¬ rc < 0 := fun hlt => by
          have := hwg.2 hlt
          rw [this] at hrel
          cases hrel
        refine ⟨by omega, by simp, [], by simp, ?_⟩
        exact NoAR.bal NoAR.nil _
    | false =>
      obtain ⟨he, ha, hd⟩ := sbufAcq_norel hacq hrel
      subst he ha hd
      refine ⟨stopFree_nil, hwg.1, ?_, ?_⟩
      · intro _
        exact NoAR.bal NoAR.nil _
      · intro i hi
        cases hi
  | none =>
    rw [hp] at h
    simp only at h
    cases hg : itf.get? with
    | some g =>
      rw [hg] at h
      simp only at h
      have hwg := (hwf.1 g hg) a.st nm
      rcases hgv : g a.st nm with ⟨rc1, sb, s1⟩
      rw [hgv] at h hwg
      simp only at h hwg
      rcases hacq : sbufAcq { a with st := s1 } sb with ⟨esb1, a9, d1⟩
      rw [hacq] at h
      simp only at h
      cases h
      cases hrel : sb.rel with
      | true =>
        obtain ⟨he, ha, hd⟩ := sbufAcq_rel hacq hrel
        subst he ha hd
        refine ⟨stopFree_cons (by intro r hc; cases hc) stopFree_nil, hwg.1, ?_, ?_⟩
        · intro hnone
          cases hnone
        · intro i hi
          injection hi with hi
          subst hi
          have : ¬ rc < 0 := fun hlt => by
            have := hwg.2 hlt
            rw [this] at hrel
            cases hrel
          refine ⟨by omega, by simp, [], by simp, ?_⟩
          exact NoAR.bal NoAR.nil _
      | false =>
        obtain ⟨he, ha, hd⟩ := sbufAcq_norel hacq hrel
        subst he ha hd
        refine ⟨stopFree_nil, hwg.1, ?_, ?_⟩
        · intro _
          exact NoAR.bal NoAR.nil _
        · intro i hi
          cases hi
    | none =>
      rw [hg] at h
      simp only at h
      rcases hdiv : divert itf a nm with ⟨rc1, osb, a9, d1⟩
      rw [hdiv] at h
      obtain ⟨hsf, hle, hneg, hsome, hbal⟩ := divert_spec hdiv
      cases osb with
      | some sb =>
        simp only at h
        rcases hacq : sbufAcq a9 sb with ⟨esb1, a10, d2⟩
        rw [hacq] at h
        simp only at h
        cases h
        obtain ⟨hrel, hrc0⟩ := hsome sb rfl
        obtain ⟨he, ha, hd⟩ := sbufAcq_rel hacq hrel
        subst he ha hd
        refine ⟨stopFree_append hsf (stopFree_cons (by intro r hc; cases hc) stopFree_nil),
          hle, ?_, ?_⟩
        · intro hnone
          cases hnone
        · intro i hi
          injection hi with hi
          subst hi
          exact ⟨hrc0, by simp, d1, rfl, hbal (fun g hgg => by rw [hg] at hgg; cases hgg)⟩
      | none =>
        simp only at h
        cases h
        refine ⟨hsf, hle, ?_, ?_⟩
        · intro _
          exact hbal (fun g hgg => by rw [hg] at hgg; cases hgg)
        · intro i hi
          cases hi

theorem enterCall_spec {σ} {itf : Itf σ} {a : Aux σ} {nm : Str} {enabled : Bool}
    {rc : Int} {a2 : Aux σ} {d : List Ev}
    (h : enterCall itf a nm enabled = (rc, a2, d)) :
    a2.nid = a.nid ∧ NoAR d ∧ stopFree d := by
  unfold enterCall at h
  cases enabled with
  | true =>
    rw [if_pos rfl] at h
    rcases hev : itf.enter a.st nm with ⟨rc1, s1⟩
    rw [hev] at h
    simp only at h
    cases h
    exact ⟨rfl, (by intro i; simp [cnt]), stopFree_cons (by intro r hc; cases hc) stopFree_nil⟩
  | false =>
    rw [if_neg (by simp)] at h
    cases h
    exact ⟨rfl, NoAR.nil, stopFree_nil⟩

theorem nextCall_spec {σ} {itf : Itf σ} {a : Aux σ} {go : Bool}
    {rc : Int} {a2 : Aux σ} {d : List Ev}
    (h : nextCall itf a go = (rc, a2, d)) :
    a2.nid = a.nid ∧ NoAR d ∧ stopFree d := by
  unfold nextCall at h
  cases go with
  | true =>
    rw [if_pos rfl] at h
    rcases hev : itf.next a.st with ⟨rc1, s1⟩
    rw [hev] at h
    simp only at h
    cases h
    exact ⟨rfl, (by intro i; simp [cnt]), stopFree_cons (by intro r hc; cases hc) stopFree_nil⟩
  | false =>
    rw [if_neg (by simp)] at h
    cases h
    exact ⟨rfl, NoAR.nil, stopFree_nil⟩

theorem leaveCall_spec {σ} {itf : Itf σ} {a : Aux σ} {go : Bool}
    {a2 : Aux σ} {d : List Ev}
    (h : leaveCall itf a go = (a2, d)) :
    a2.nid = a.nid ∧ NoAR d ∧ stopFree d := by
  unfold leaveCall at h
  cases go with
  | true =>
    rw [if_pos rfl] at h
    cases h
    exact ⟨rfl, (by intro i; simp [cnt]), stopFree_cons (by intro r hc; cases hc) stopFree_nil⟩
  | false =>
    rw [if_neg (by simp)] at h
    cases h
    exact ⟨rfl, NoAR.nil, stopFree_nil⟩

theorem openSection_spec {σ} {itf : Itf σ} {a : Aux σ} {c : Char} {nm tplAfter : Str}
    {stack : List Frame} {enabled : Bool}
    {rc : Int} {res : Option (List Frame × Bool)} {a2 : Aux σ} {d : List Ev}
    (h : openSection itf a c nm tplAfter stack enabled = (rc, res, a2, d)) :
    a2.nid = a.nid ∧ NoAR d ∧ stopFree d := by
  unfold openSection at h
  split at h
  · cases h
    exact ⟨rfl, NoAR.nil, stopFree_nil⟩
  · rcases hec : enterCall itf a nm enabled with ⟨rc1, a9, d1⟩
    rw [hec] at h
    simp only at h
    split at h <;> (cases h; exact enterCall_spec hec)

theorem closeSection_spec {σ} {itf : Itf σ} {a : Aux σ} {nm tplAfter : Str}
    {stack : List Frame} {enabled : Bool}
    {rc : Int} {res : Option (Str × List Frame × Bool)} {a2 : Aux σ} {d : List Ev}
    (h : closeSection itf a nm tplAfter stack enabled = (rc, res, a2, d)) :
    a2.nid = a.nid ∧ NoAR d ∧ stopFree d := by
  unfold closeSection at h
  cases stack with
  | nil =>
    cases h
    exact ⟨rfl, NoAR.nil, stopFree_nil⟩
  | cons top rest =>
    simp only at h
    split at h
    · cases h
      exact ⟨rfl, NoAR.nil, stopFree_nil⟩
    · rcases hnc : nextCall itf a (enabled && !(top.entered == 0)) with ⟨rc1, a9, d1⟩
      rw [hnc] at h
      simp only at h
      obtain ⟨ha9, hnar1, hsf1⟩ := nextCall_spec hnc
      split at h
      · cases h
        exact ⟨ha9, hnar1, hsf1⟩
      · split at h
        · cases h
          exact ⟨ha9, hnar1, hsf1⟩
        · rcases hlc : leaveCall itf a9 (top.enabled && !(top.entered == 0)) with ⟨a10, d2⟩
          rw [hlc] at h
          simp only at h
          cases h
          obtain ⟨ha10, hnar2, hsf2⟩ := leaveCall_spec hlc
          exact ⟨ha10.trans ha9, noAR_append hnar1 hnar2, stopFree_append hsf1 hsf2⟩

theorem preEmit_spec {σ} {itf : Itf σ} {a : Aux σ} {bytes : Str} {go : Bool}
    {rc : Int} {a2 : Aux σ} {w : Str} {d : List Ev}
    (h : preEmit itf a bytes go = (rc, a2, w, d)) : a2.nid = a.nid ∧ d = [] := by
  unfold preEmit at h
  cases go with
  | true =>
    rw [if_pos rfl] at h
    exact emit_spec h
  | false =>
    rw [if_neg (by simp)] at h
    cases h
    exact ⟨rfl, rfl⟩

theorem prep_some {σ} {w0 : Str} {d0 : List Ev} {x : Option (Int × Aux σ × Str × List Ev)}
    {rc : Int} {a2 : Aux σ} {w : Str} {d : List Ev}
    (h : prep w0 d0 x = some (rc, a2, w, d)) :
    ∃ w1 d1, x = some (rc, a2, w1, d1) ∧ w = w0 ++ w1 ∧ d = d0 ++ d1 := by
  cases x with
  | none => cases h
  | some r =>
    obtain ⟨rc1, a1, w1, d1⟩ := r
    unfold prep at h
    simp only [Option.some.injEq, Prod.mk.injEq] at h
    obtain ⟨h1, h2, h3, h4⟩ := h
    exact ⟨w1, d1, by rw [h1, h2], h3.symm, h4.symm⟩

theorem stopFree_sbufRel (e : ESbuf) : stopFree (sbufRel e) := by
  unfold sbufRel
  cases e.relId with
  | some i => exact stopFree_cons (by intro r hc; cases hc) stopFree_nil
  | none => exact stopFree_nil

theorem partCap_stopFree {σ} {itf : Itf σ} {a : Aux σ} {nm : Str}
    {rc : Int} {esb : ESbuf} {a2 : Aux σ} {d : List Ev}
    (h : partCap itf a nm = (rc, esb, a2, d)) : stopFree d := by
  unfold partCap at h
  cases hp : itf.partCap? with
  | some p =>
    rw [hp] at h
    simp only at h
    rcases hpv : p a.st nm with ⟨rc1, sb, s1⟩
    rw [hpv] at h
    simp only at h
    rcases hacq : sbufAcq { a with st := s1 } sb with ⟨esb1, a9, d1⟩
    rw [hacq] at h
    simp only at h
    cases h
    cases hrel : sb.rel with
    | true =>
      rw [(sbufAcq_rel hacq hrel).2.2]
      exact stopFree_cons (by intro r hc; cases hc) stopFree_nil
    | false =>
      rw [(sbufAcq_norel hacq hrel).2.2]
      exact stopFree_nil
  | none =>
    rw [hp] at h
    simp only at h
    cases hg : itf.get? with
    | some g =>
      rw [hg] at h
      simp only at h
      rcases hgv : g a.st nm with ⟨rc1, sb, s1⟩
      rw [hgv] at h
      simp only at h
      rcases hacq : sbufAcq { a with st := s1 } sb with ⟨esb1, a9, d1⟩
      rw [hacq] at h
      simp only at h
      cases h
      cases hrel : sb.rel with
      | true =>
        rw [(sbufAcq_rel hacq hrel).2.2]
        exact stopFree_cons (by intro r hc; cases hc) stopFree_nil
      | false =>
        rw [(sbufAcq_norel hacq hrel).2.2]
        exact stopFree_nil
    | none =>
      rw [hg] at h
      simp only at h
      rcases hdiv : divert itf a nm with ⟨rc1, osb, a9, d1⟩
      rw [hdiv] at h
      obtain ⟨hsf, -, -, -, -⟩ := divert_spec hdiv
      cases osb with
      | some sb =>
        simp only at h
        rcases hacq : sbufAcq a9 sb with ⟨esb1, a10, d2⟩
        rw [hacq] at h
        simp only at h
        cases h
        refine stopFree_append hsf ?_
        cases hrel : sb.rel with
        | true =>
          rw [(sbufAcq_rel hacq hrel).2.2]
          exact stopFree_cons (by intro r hc; cases hc) stopFree_nil
        | false =>
          rw [(sbufAcq_norel hacq hrel).2.2]
          exact stopFree_nil
      | none =>
        simp only at h
        cases h
        exact hsf

theorem Bal.cast {d : List Ev} {a b a2 b2 : Nat} (h : Bal d a b)
    (ha : a = a2) (hb : b = b2) : Bal d a2 b2 := ha ▸ hb ▸ h

set_option maxHeartbeats 1000000 in
theorem processLoop_events {σ} (itf : Itf σ) :
    ∀ fuel template opstr clstr stack enabled a rc a2 w d,
      processLoop itf fuel template opstr clstr stack enabled a = some (rc, a2, w, d) →
      stopFree d ∧ (WfItf itf → Bal d a.nid a2.nid) := by
  intro fuel
  induction fuel with
  | zero =>
    intro template opstr clstr stack enabled a rc a2 w d h
    simp [processLoop] at h
  | succ fuel ih =>
    intro template opstr clstr stack enabled a rc a2 w d h
    rw [processLoop] at h
    cases hss : strstr template opstr with
    | none =>
      rw [hss] at h
      simp only at h
      rcases hpe : preEmit itf a template (enabled && !(template == [])) with ⟨rc1, a9, w1, d1⟩
      rw [hpe] at h
      simp only at h
      obtain ⟨hn9, hd1⟩ := preEmit_spec hpe
      subst hd1
      split at h <;>
        (cases h; exact ⟨stopFree_nil, fun _ => (NoAR.bal NoAR.nil _).cast rfl hn9.symm⟩)
    | some presuf =>
      obtain ⟨pre, atOp⟩ := presuf
      rw [hss] at h
      simp only at h
      rcases hpe : preEmit itf a pre (enabled && !(pre == [])) with ⟨rc0, a0, w0, d0⟩
      rw [hpe] at h
      simp only at h
      obtain ⟨hn0, hd0⟩ := preEmit_spec hpe
      subst hd0
      simp only [List.nil_append] at h
      split at h
      · cases h
        exact ⟨stopFree_nil, fun _ => (NoAR.bal NoAR.nil _).cast rfl hn0.symm⟩
      · cases hs2 : strstr (atOp.drop opstr.length) clstr with
        | none =>
          rw [hs2] at h
          simp only at h
          cases h
          exact ⟨stopFree_nil, fun _ => (NoAR.bal NoAR.nil _).cast rfl hn0.symm⟩
        | some bodycl =>
          obtain ⟨body, atCl⟩ := bodycl
          rw [hs2] at h
          simp only at h
          cases hfs : firstSwitch clstr ((atOp.drop opstr.length).headD (Char.ofNat 0)) body
              (atCl.drop clstr.length) with
          | error rcE =>
            rw [hfs] at h
            simp only at h
            cases h
            exact ⟨stopFree_nil, fun _ => (NoAR.bal NoAR.nil _).cast rfl hn0.symm⟩
          | ok trip =>
            obtain ⟨c, nm, tpl2⟩ := trip
            rw [hfs] at h
            simp only at h
            split at h
            -- comment tag
            · obtain ⟨w1, d1, hx, hw, hd⟩ := prep_some h
              subst hw hd
              obtain ⟨hsf1, hbal1⟩ := ih _ _ _ _ _ _ _ _ _ _ hx
              refine ⟨stopFree_append stopFree_nil hsf1, fun hwf => ?_⟩
              exact (NoAR.nil.bal a.nid).append ((hbal1 hwf).cast hn0 rfl)
            -- separator-change tag
            · cases hsc : sepChange nm with
              | none =>
                rw [hsc] at h
                simp only at h
                cases h
                exact ⟨stopFree_nil, fun _ => (NoAR.bal NoAR.nil _).cast rfl hn0.symm⟩
              | some oc =>
                obtain ⟨op2, cl2⟩ := oc
                rw [hsc] at h
                simp only at h
                obtain ⟨w1, d1, hx, hw, hd⟩ := prep_some h
                subst hw hd
                obtain ⟨hsf1, hbal1⟩ := ih _ _ _ _ _ _ _ _ _ _ hx
                refine ⟨stopFree_append stopFree_nil hsf1, fun hwf => ?_⟩
                exact (NoAR.nil.bal a.nid).append ((hbal1 hwf).cast hn0 rfl)
            -- inverted-section open
            · rcases hos : openSection itf a0 '^' nm tpl2 stack enabled with ⟨rc1, res1, a9, d1⟩
              rw [hos] at h
              obtain ⟨hn9, hnar1, hsf1⟩ := openSection_spec hos
              cases res1 with
              | none =>
                simp only at h
                cases h
                exact ⟨hsf1, fun _ => (hnar1.bal a.nid).cast rfl (hn9.trans hn0).symm⟩
              | some se =>
                obtain ⟨stack2, en2⟩ := se
                simp only at h
                obtain ⟨w1, d1x, hx, hw, hd⟩ := prep_some h
                subst hw hd
                obtain ⟨hsf2, hbal2⟩ := ih _ _ _ _ _ _ _ _ _ _ hx
                refine ⟨stopFree_append hsf1 hsf2, fun hwf => ?_⟩
                exact ((hnar1.bal a.nid).append (((hbal2 hwf).cast (hn9.trans hn0) rfl))).cast rfl rfl
            -- normal-section open
            · rcases hos : openSection itf a0 '#' nm tpl2 stack enabled with ⟨rc1, res1, a9, d1⟩
              rw [hos] at h
              obtain ⟨hn9, hnar1, hsf1⟩ := openSection_spec hos
              cases res1 with
              | none =>
                simp only at h
                cases h
                exact ⟨hsf1, fun _ => (hnar1.bal a.nid).cast rfl (hn9.trans hn0).symm⟩
              | some se =>
                obtain ⟨stack2, en2⟩ := se
                simp only at h
                obtain ⟨w1, d1x, hx, hw, hd⟩ := prep_some h
                subst hw hd
                obtain ⟨hsf2, hbal2⟩ := ih _ _ _ _ _ _ _ _ _ _ hx
                refine ⟨stopFree_append hsf1 hsf2, fun hwf => ?_⟩
                exact (hnar1.bal a.nid).append ((hbal2 hwf).cast (hn9.trans hn0) rfl)
            -- section close
            · rcases hcs : closeSection itf a0 nm tpl2 stack enabled with ⟨rc1, res1, a9, d1⟩
              rw [hcs] at h
              obtain ⟨hn9, hnar1, hsf1⟩ := closeSection_spec hcs
              cases res1 with
              | none =>
                simp only at h
                cases h
                exact ⟨hsf1, fun _ => (hnar1.bal a.nid).cast rfl (hn9.trans hn0).symm⟩
              | some se =>
                obtain ⟨tpl3, stack2, en2⟩ := se
                simp only at h
                obtain ⟨w1, d1x, hx, hw, hd⟩ := prep_some h
                subst hw hd
                obtain ⟨hsf2, hbal2⟩ := ih _ _ _ _ _ _ _ _ _ _ hx
                refine ⟨stopFree_append hsf1 hsf2, fun hwf => ?_⟩
                exact (hnar1.bal a.nid).append ((hbal2 hwf).cast (hn9.trans hn0) rfl)
            -- partial inclusion
            · cases enabled with
              | false =>
                rw [if_neg (by simp : ¬ (false = true))] at h
                obtain ⟨w1, d1, hx, hw, hd⟩ := prep_some h
                subst hw hd
                obtain ⟨hsf1, hbal1⟩ := ih _ _ _ _ _ _ _ _ _ _ hx
                refine ⟨stopFree_append stopFree_nil hsf1, fun hwf => ?_⟩
                exact (NoAR.nil.bal a.nid).append ((hbal1 hwf).cast hn0 rfl)
              | true =>
                rw [if_pos rfl] at h
                rcases hpc : partCap itf a0 nm with ⟨rc1, esb, a9, d1⟩
                rw [hpc] at h
                simp only at h
                have hsfp := partCap_stopFree hpc
                split at h
                · -- rc1 = 0 : recursive inclusion
                  cases hrec : processLoop itf fuel esb.value opstr clstr [] true a9 with
                  | none =>
                    rw [hrec] at h
                    cases h
                  | some r4 =>
                    obtain ⟨rc2, a3, w1, d2⟩ := r4
                    rw [hrec] at h
                    simp only at h
                    obtain ⟨hsf2, hbal2⟩ := ih _ _ _ _ _ _ _ _ _ _ hrec
                    split at h
                    · cases h
                      refine ⟨stopFree_append (stopFree_append hsfp hsf2)
                        (stopFree_sbufRel esb), fun hwf => ?_⟩
                      obtain ⟨hsfx, hle, hrnone, hrsome⟩ := partCap_spec hwf hpc
                      cases hrid : esb.relId with
                      | none =>
                        have hsr : sbufRel esb = [] := by unfold sbufRel; rw [hrid]
                        rw [hsr]
                        have b1 : Bal d1 a.nid a9.nid := (hrnone hrid).cast hn0 rfl
                        simpa using b1.append (hbal2 hwf)
                      | some i =>
                        obtain ⟨hrc0, hn9, d10, hd1eq, hbal10⟩ := hrsome i hrid
                        have hsr : sbufRel esb = [Ev.rel i] := by unfold sbufRel; rw [hrid]
                        rw [hsr, hd1eq]
                        have b2 : Bal d2 (i + 1) a2.nid := (hbal2 hwf).cast hn9 rfl
                        have bfull : Bal (d10 ++ (Ev.acq i :: (d2 ++ [Ev.rel i]))) a.nid a2.nid :=
                          (hbal10.cast hn0 rfl).append b2.wrap
                        simpa [List.append_assoc] using bfull
                    · obtain ⟨w2, d3, hx, hw, hd⟩ := prep_some h
                      subst hw hd
                      obtain ⟨hsf3, hbal3⟩ := ih _ _ _ _ _ _ _ _ _ _ hx
                      refine ⟨stopFree_append (stopFree_append (stopFree_append hsfp hsf2)
                        (stopFree_sbufRel esb)) hsf3, fun hwf => ?_⟩
                      obtain ⟨hsfx, hle, hrnone, hrsome⟩ := partCap_spec hwf hpc
                      have bpre : Bal ((d1 ++ d2) ++ sbufRel esb) a.nid a3.nid := by
                        cases hrid : esb.relId with
                        | none =>
                          have hsr : sbufRel esb = [] := by unfold sbufRel; rw [hrid]
                          rw [hsr]
                          have b1 : Bal d1 a.nid a9.nid := (hrnone hrid).cast hn0 rfl
                          simpa using b1.append (hbal2 hwf)
                        | some i =>
                          obtain ⟨hrc0, hn9, d10, hd1eq, hbal10⟩ := hrsome i hrid
                          have hsr : sbufRel esb = [Ev.rel i] := by unfold sbufRel; rw [hrid]
                          rw [hsr, hd1eq]
                          have b2 : Bal d2 (i + 1) a3.nid := (hbal2 hwf).cast hn9 rfl
                          have bfull : Bal (d10 ++ (Ev.acq i :: (d2 ++ [Ev.rel i]))) a.nid a3.nid :=
                            (hbal10.cast hn0 rfl).append b2.wrap
                          simpa [List.append_assoc] using bfull
                      exact bpre.append (hbal3 hwf)
                · -- rc1 nonzero
                  split at h
                  · cases h
                    refine ⟨hsfp, fun hwf => ?_⟩
                    obtain ⟨hsfx, hle, hrnone, hrsome⟩ := partCap_spec hwf hpc
                    cases hrid : esb.relId with
                    | none => exact (hrnone hrid).cast hn0 rfl
                    | some i => exact absurd (hrsome i hrid).1 (by assumption)
                  · obtain ⟨w1, d1x, hx, hw, hd⟩ := prep_some h
                    subst hw hd
                    obtain ⟨hsf1, hbal1⟩ := ih _ _ _ _ _ _ _ _ _ _ hx
                    refine ⟨stopFree_append hsfp hsf1, fun hwf => ?_⟩
                    obtain ⟨hsfx, hle, hrnone, hrsome⟩ := partCap_spec hwf hpc
                    exfalso
                    omega
            -- replacement (interpolation)
            · cases enabled with
              | false =>
                rw [if_neg (by simp : ¬ (false = true))] at h
                obtain ⟨w1, d1, hx, hw, hd⟩ := prep_some h
                subst hw hd
                obtain ⟨hsf1, hbal1⟩ := ih _ _ _ _ _ _ _ _ _ _ hx
                refine ⟨stopFree_append stopFree_nil hsf1, fun hwf => ?_⟩
                exact (NoAR.nil.bal a.nid).append ((hbal1 hwf).cast hn0 rfl)
              | true =>
                rw [if_pos rfl] at h
                rcases hpt : put itf a0 nm (!(c == '&')) with ⟨rc1, a9, w1, d1⟩
                rw [hpt] at h
                simp only at h
                have hsfp := put_stopFree hpt
                split at h
                · cases h
                  refine ⟨hsfp, fun hwf => ?_⟩
                  exact (put_bal hwf.1 hpt).cast hn0 rfl
                · obtain ⟨w2, d2, hx, hw, hd⟩ := prep_some h
                  subst hw hd
                  obtain ⟨hsf2, hbal2⟩ := ih _ _ _ _ _ _ _ _ _ _ hx
                  refine ⟨stopFree_append hsfp hsf2, fun hwf => ?_⟩
                  exact ((put_bal hwf.1 hpt).cast hn0 rfl).append (hbal2 hwf)

theorem acqIds_count : ∀ (d : List Ev) (i : Nat), (acqIds d).count i = cnt (Ev.acq i) d
  | [], _ => rfl
  | e :: l, i => by
    have ihl := acqIds_count l i
    cases e with
    | acq j =>
      rw [show acqIds (Ev.acq j :: l) = j :: acqIds l from rfl, List.count_cons, cnt_cons, ihl]
      rcases eq_or_ne j i with rfl | hne
      · simp
        omega
      · rw [if_neg (by simpa using hne), if_neg (by simp [hne])]
        omega
    | rel j => simpa [show acqIds (Ev.rel j :: l) = acqIds l from rfl, cnt_cons] using ihl
    | startE r => simpa [show acqIds (Ev.startE r :: l) = acqIds l from rfl, cnt_cons] using ihl
    | stopE r => simpa [show acqIds (Ev.stopE r :: l) = acqIds l from rfl, cnt_cons] using ihl
    | enterE n r => simpa [show acqIds (Ev.enterE n r :: l) = acqIds l from rfl, cnt_cons] using ihl
    | nextE r => simpa [show acqIds (Ev.nextE r :: l) = acqIds l from rfl, cnt_cons] using ihl
    | leaveE => simpa [show acqIds (Ev.leaveE :: l) = acqIds l from rfl, cnt_cons] using ihl
    | putE n e2 => simpa [show acqIds (Ev.putE n e2 :: l) = acqIds l from rfl, cnt_cons] using ihl

theorem relIds_count : ∀ (d : List Ev) (i : Nat), (relIds d).count i = cnt (Ev.rel i) d
  | [], _ => rfl
  | e :: l, i => by
    have ihl := relIds_count l i
    cases e with
    | rel j =>
      rw [show relIds (Ev.rel j :: l) = j :: relIds l from rfl, List.count_cons, cnt_cons, ihl]
      rcases eq_or_ne j i with rfl | hne
      · simp
        omega
      · rw [if_neg (by simpa using hne), if_neg (by simp [hne])]
        omega
    | acq j => simpa [show relIds (Ev.acq j :: l) = relIds l from rfl, cnt_cons] using ihl
    | startE r => simpa [show relIds (Ev.startE r :: l) = relIds l from rfl, cnt_cons] using ihl
    | stopE r => simpa [show relIds (Ev.stopE r :: l) = relIds l from rfl, cnt_cons] using ihl
    | enterE n r => simpa [show relIds (Ev.enterE n r :: l) = relIds l from rfl, cnt_cons] using ihl
    | nextE r => simpa [show relIds (Ev.nextE r :: l) = relIds l from rfl, cnt_cons] using ihl
    | leaveE => simpa [show relIds (Ev.leaveE :: l) = relIds l from rfl, cnt_cons] using ihl
    | putE n e2 => simpa [show relIds (Ev.putE n e2 :: l) = relIds l from rfl, cnt_cons] using ihl

theorem stopCount_zero {d : List Ev} (h : stopFree d) : stopCount d = 0 := by
  unfold stopCount
  have hfil : d.filter (fun e => match e with | Ev.stopE _ => true | _ => false) = [] := by
    induction d with
    | nil => rfl
    | cons e l ihl =>
      have hl : stopFree l := fun r hm => h r (List.mem_cons_of_mem e hm)
      have he : (fun e => match e with | Ev.stopE _ => true | _ => false) e = false := by
        cases e with
        | stopE r => exact absurd (List.mem_cons_self _ _) (fun hm => h r hm)
        | acq i => rfl
        | rel i => rfl
        | startE r => rfl
        | enterE n r => rfl
        | nextE r => rfl
        | leaveE => rfl
        | putE n e2 => rfl
      rw [List.filter_cons_of_neg (by simp [he]), ihl hl]
  rw [hfil]
  rfl

theorem fmustach_events {σ} {itf : Itf σ} {fuel : Nat} {tpl : Str} {s : σ}
    {rc : Int} {a2 : Aux σ} {w : Str} {d : List Ev}
    (h : fmustach itf fuel tpl s = some (rc, a2, w, d)) :
    stopFree d ∧ (WfItf itf → Bal d 0 a2.nid) := by
  unfold fmustach at h
  cases hst : itf.start? with
  | none =>
    rw [hst] at h
    exact processLoop_events itf _ _ _ _ _ _ _ _ _ _ _ h
  | some f =>
    rw [hst] at h
    simp only at h
    rcases hf : f s with ⟨rc1, s2⟩
    rw [hf] at h
    simp only at h
    split at h
    · obtain ⟨w1, d1, hx, hw, hd⟩ := prep_some h
      subst hw hd
      obtain ⟨hsf, hbal⟩ := processLoop_events itf _ _ _ _ _ _ _ _ _ _ _ hx
      refine ⟨stopFree_append (stopFree_cons (by intro r hc; cases hc) stopFree_nil) hsf,
        fun hwf => ?_⟩
      exact ((NoAR.bal (by intro i; simp [cnt]) 0).append (hbal hwf)).cast rfl rfl
    · cases h
      exact ⟨stopFree_cons (by intro r hc; cases hc) stopFree_nil,
        fun _ => NoAR.bal (by intro i; simp [cnt]) _⟩

theorem relProv_wf : WfItf relProv := by
  constructor
  · intro g hg
    injection hg with hg
    subst hg
    intro s n
    refine ⟨le_refl 0, fun hlt => ?_⟩
    simp at hlt
  · intro p hp
    cases hp

/-- C1: for every terminating render with a contract-abiding provider,
the multiset of released ids equals the multiset of acquired ids and no
id is acquired twice: every resolved value carrying a release callback
(through `get`, the partial capability, or the internal `divert`
fallback) is released exactly once, on success and error paths alike. -/
theorem c1_release_exactly_once {σ} (itf : Itf σ) (fuel : Nat) (tpl : Str) (s : σ)
    (rc : Int) (a2 : Aux σ) (w : Str) (d : List Ev)
    (hwf : WfItf itf)
    (hrun : fmustach itf fuel tpl s = some (rc, a2, w, d)) :
    (relIds d).Perm (acqIds d) ∧ (acqIds d).Nodup := by
  obtain ⟨-, hbal⟩ := fmustach_events hrun
  obtain ⟨-, hb⟩ := hbal hwf
  constructor
  · rw [List.perm_iff_count]
    intro i
    rw [acqIds_count, relIds_count, (hb i).1, (hb i).2]
  · rw [List.nodup_iff_count_le_one]
    intro i
    rw [acqIds_count, (hb i).1]
    unfold ind
    split_ifs <;> omega

/-- Witness for C1 at a concrete run: rendering `{{x}}` against
`relProv` acquires id 0 and releases it exactly once. -/
theorem c1_release_exactly_once_witness :
    WfItf relProv ∧
    fmustach relProv 2 ['{', '{', 'x', '}', '}'] () =
      some (0, { st := (), nid := 1 }, ['A'], [Ev.putE ['x'] true, Ev.acq 0, Ev.rel 0]) ∧
    ((relIds [Ev.putE ['x'] true, Ev.acq 0, Ev.rel 0]).Perm
        (acqIds [Ev.putE ['x'] true, Ev.acq 0, Ev.rel 0]) ∧
      (acqIds [Ev.putE ['x'] true, Ev.acq 0, Ev.rel 0]).Nodup) :=
  ⟨relProv_wf, rfl,
    c1_release_exactly_once relProv 2 ['{', '{', 'x', '}', '}'] () 0
      { st := (), nid := 1 } ['A'] [Ev.putE ['x'] true, Ev.acq 0, Ev.rel 0] relProv_wf rfl⟩

/-- C2 counterexample: a provider supplies `stop`, the render reaches
invocation exit with outcome 0, yet the trace contains no `stop` call,
contradicting the claim that `stop` is called exactly once at exit. -/
theorem c2_counterexample :
    ¬ stopProv.stop? = none ∧
    fmustach stopProv 1 [] () = some (0, { st := (), nid := 0 }, [], []) ∧
    ¬ stopCount [] = 1 :=
  ⟨by simp [stopProv], rfl, by decide⟩

/-- C2 (amended): `fmustach` never invokes a stop capability: on every
terminating invocation, the trace records zero `stop` calls; the
processor's outcome is returned directly. -/
theorem c2_amended_no_stop_call {σ} (itf : Itf σ) (fuel : Nat) (tpl : Str) (s : σ)
    (rc : Int) (a2 : Aux σ) (w : Str) (d : List Ev)
    (hrun : fmustach itf fuel tpl s = some (rc, a2, w, d)) :
    stopCount d = 0 :=
  stopCount_zero (fmustach_events hrun).1

/-- Witness for the amended C2 at a concrete run. -/
theorem c2_amended_no_stop_call_witness :
    fmustach stopProv 1 [] () = some (0, { st := (), nid := 0 }, [], []) ∧
    stopCount [] = 0 :=
  ⟨rfl, c2_amended_no_stop_call stopProv 1 [] () 0 { st := (), nid := 0 } [] [] rfl⟩

/-- C3 counterexample: rendering `{{x}}` with `x` resolved to `&` under
the default emitter emits the byte `&` unchanged (escape flag true but
ignored), not the entity form `&amp;` the claim requires. -/
theorem c3_counterexample :
    fmustach ampProv 2 ['{', '{', 'x', '}', '}'] () =
      some (0, { st := (), nid := 0 }, ['&'], [Ev.putE ['x'] true]) ∧
    ¬ (['&'] : Str) = ['&', 'a', 'm', 'p', ';'] :=
  ⟨rfl, by decide⟩

/-- C3 (amended): the default emitter writes the resolved value
byte-for-byte and ignores the escape flag entirely; the processor
computes the flag (true for `{{x}}`, false for `{{&x}}` and `{{{x}}}`)
and passes it to the put/emit capability, which is where any HTML
escaping would have to happen. -/
theorem c3_amended_default_emitter_byte_for_byte {σ} (itf : Itf σ) (a : Aux σ)
    (bytes : Str) (e1 e2 : Bool) (hnoemit : itf.emit? = none) :
    (emit itf a bytes e1).2.2.1 = bytes ∧
    emit itf a bytes e1 = emit itf a bytes e2 ∧
    fmustach recProv 2 ['{', '{', 'x', '}', '}'] () =
      some (0, { st := (), nid := 0 }, ['P'], [Ev.putE ['x'] true]) ∧
    fmustach recProv 2 ['{', '{', '&', 'x', '}', '}'] () =
      some (0, { st := (), nid := 0 }, ['P'], [Ev.putE ['x'] false]) ∧
    fmustach recProv 2 ['{', '{', '{', 'x', '}', '}', '}'] () =
      some (0, { st := (), nid := 0 }, ['P'], [Ev.putE ['x'] false]) := by
  refine ⟨?_, ?_, rfl, rfl, rfl⟩
  · unfold emit
    rw [hnoemit]
    simp only
    by_cases hb : bytes = []
    · rw [if_pos hb]
      simp [hb]
    · rw [if_neg hb]
  · unfold emit
    rw [hnoemit]

/-- Witness for the amended C3 at a concrete emitter-free interface. -/
theorem c3_amended_witness :
    ampProv.emit? = none ∧
    (emit ampProv { st := (), nid := 0 } ['&'] true).2.2.1 = ['&'] :=
  ⟨rfl, (c3_amended_default_emitter_byte_for_byte ampProv { st := (), nid := 0 }
    ['&'] true false rfl).1⟩

/-- C10 counterexample: when opening the memory stream fails, `mustach`
returns `MUSTACH_ERROR_SYSTEM` with `*result = NULL` but leaves `*size`
untouched (here the caller's prior value 5), not 0 as claimed. -/
theorem c10_counterexample :
    mustach ampProv 1 [] () false 5 = some (MUSTACH_ERROR_SYSTEM, none, 5) ∧
    MUSTACH_ERROR_SYSTEM < 0 ∧ ¬ (5 = 0) :=
  ⟨rfl, by decide, by decide⟩

/-- C10 (amended): whenever `mustach` returns a negative code, `*result`
is `NULL`; `*size` is 0 on every failure path except a failed
`open_memstream`, where no assignment to `*size` runs at all (but
`*result` is already `NULL`, so no partial buffer is exposed). -/
theorem c10_amended_mustach_failure {σ} (itf : Itf σ) (fuel : Nat) (tpl : Str) (s : σ)
    (openOk : Bool) (size0 : Nat) (rc : Int) (res : Option Str) (sz : Nat)
    (hrun : mustach itf fuel tpl s openOk size0 = some (rc, res, sz))
    (hneg : rc < 0) :
    res = none ∧ (openOk = true → sz = 0) := by
  unfold mustach at hrun
  cases openOk with
  | false =>
    rw [if_neg (by simp)] at hrun
    cases hrun
    exact ⟨rfl, fun hc => by cases hc⟩
  | true =>
    rw [if_pos rfl] at hrun
    cases hfm : fmustach itf fuel tpl s with
    | none =>
      rw [hfm] at hrun
      cases hrun
    | some r =>
      obtain ⟨rc1, a1, w1, d1⟩ := r
      rw [hfm] at hrun
      simp only at hrun
      split at hrun
      · cases hrun
        exact ⟨rfl, fun _ => rfl⟩
      · cases hrun
        exact absurd hneg (by simp [MUSTACH_OK])

/-- Witness for the amended C10: an unterminated tag makes the processor
fail with the stream open, and the abort path stores `NULL`/0. -/
theorem c10_amended_mustach_failure_witness :
    mustach ampProv 1 ['{', '{', 'x'] () true 7 =
      some (MUSTACH_ERROR_UNEXPECTED_END, none, 0) ∧
    MUSTACH_ERROR_UNEXPECTED_END < 0 ∧
    ((none : Option Str) = none ∧ (true = true → 0 = 0)) :=
  ⟨rfl, by decide,
    c10_amended_mustach_failure ampProv 1 ['{', '{', 'x'] () true 7
      MUSTACH_ERROR_UNEXPECTED_END none 0 rfl (by decide)⟩

/-- C6: at a section-open tag with emission enabled, `enter` is called
with the trimmed name; a negative answer aborts, otherwise a frame is
pushed recording the answer and emission is disabled exactly when the
sigil is `#` and enter returned zero, or the sigil is `^` and it
returned nonzero.  With emission disabled, `enter` is not called, the
frame records entered = 0, and scanning continues suppressed. -/
theorem c6_section_open_semantics {σ} (itf : Itf σ) (a : Aux σ) (c : Char)
    (nm tplAfter : Str) (stack : List Frame)
    (hd : ¬ stack.length = DEPTH_MAX) (hc : c = '#' ∨ c = '^') :
    (openSection itf a c nm tplAfter stack false =
      (MUSTACH_OK,
       some ({ name := nm, again := tplAfter, enabled := false, entered := 0 } :: stack, false),
       a, [])) ∧
    (∀ er s2, itf.enter a.st nm = (er, s2) →
      (er < 0 → openSection itf a c nm tplAfter stack true =
        (er, none, { a with st := s2 }, [Ev.enterE nm er])) ∧
      (0 ≤ er → openSection itf a c nm tplAfter stack true =
        (MUSTACH_OK,
         some ({ name := nm, again := tplAfter, enabled := true, entered := er } :: stack,
               if (c = '#' ∧ er = 0) ∨ (c = '^' ∧ ¬ er = 0) then false else true),
         { a with st := s2 }, [Ev.enterE nm er]))) := by
  have h1 : enterCall itf a nm false = (0, a, []) := by
    unfold enterCall
    rw [if_neg (by simp)]
  constructor
  · unfold openSection
    rw [if_neg hd, h1]
    simp only
    rw [if_neg (by norm_num : ¬ (0 : Int) < 0)]
    rcases hc with rfl | rfl <;> rfl
  · intro er s2 hev
    have h2 : enterCall itf a nm true = (er, { a with st := s2 }, [Ev.enterE nm er]) := by
      unfold enterCall
      rw [if_pos rfl, hev]
    constructor
    · intro hneg
      unfold openSection
      rw [if_neg hd, h2]
      simp only
      rw [if_pos hneg]
    · intro hpos
      unfold openSection
      rw [if_neg hd, h2]
      simp only
      rw [if_neg (by omega : ¬ er < 0)]
      have hb : (if ((c == '#') == (er == 0)) then false else true)
          = (if (c = '#' ∧ er = 0) ∨ (c = '^' ∧ ¬ er = 0) then false else true) := by
        rcases hc with rfl | rfl
        · by_cases h0 : er = 0
          · subst h0
            simp
          · simp [h0]
        · by_cases h0 : er = 0
          · subst h0
            simp
          · simp [h0]
      rw [hb]

/-- Witness for C6: a suppressed section open on an empty stack pushes a
frame with entered = 0, calls nothing, and keeps emission off. -/
theorem c6_section_open_semantics_witness :
    ¬ ([] : List Frame).length = DEPTH_MAX ∧ ('#' = '#' ∨ '#' = '^') ∧
    openSection ampProv { st := (), nid := 0 } '#' ['s'] [] [] false =
      (MUSTACH_OK,
       some ([{ name := ['s'], again := [], enabled := false, entered := 0 }], false),
       { st := (), nid := 0 }, []) :=
  ⟨by decide, Or.inl rfl,
    (c6_section_open_semantics ampProv { st := (), nid := 0 } '#' ['s'] [] []
      (by decide) (Or.inl rfl)).1⟩

/-- C8: a closing tag is accepted only when its trimmed name equals the
top frame's name byte-for-byte: an empty stack or any name mismatch
returns `MUSTACH_ERROR_CLOSING` at once (no provider call), a match
proceeds through the `next` consultation; and a full run of `{{/x}}` at
top level under the default delimiters reports `CLOSING`. -/
theorem c8_closing_name_match {σ} (itf : Itf σ) (a : Aux σ) (nm tplAfter : Str)
    (enabled : Bool) :
    (closeSection itf a nm tplAfter [] enabled = (MUSTACH_ERROR_CLOSING, none, a, [])) ∧
    (∀ top rest, ¬ nm = top.name →
      closeSection itf a nm tplAfter (top :: rest) enabled =
        (MUSTACH_ERROR_CLOSING, none, a, [])) ∧
    (∀ top rest, nm = top.name → (∀ s, 0 ≤ (itf.next s).1) →
      ∃ tpl2 stack2 en2 a2 d,
        closeSection itf a nm tplAfter (top :: rest) enabled =
          (MUSTACH_OK, some (tpl2, stack2, en2), a2, d)) ∧
    (∀ fuel en1 a1,
      processLoop itf (fuel + 1) ['{', '{', '/', 'x', '}', '}'] dfltOp dfltCl [] en1 a1 =
        some (MUSTACH_ERROR_CLOSING, a1, [], [])) := by
  refine ⟨rfl, ?_, ?_, ?_⟩
  · intro top rest hne
    unfold closeSection
    simp only
    rw [if_pos hne]
  · intro top rest heq hnext
    unfold closeSection
    simp only
    rw [if_neg (not_not_intro heq)]
    rcases hnc : nextCall itf a (enabled && !(top.entered == 0)) with ⟨rc1, a9, d1⟩
    have h0 : 0 ≤ rc1 := by
      unfold nextCall at hnc
      split at hnc
      · rcases hnv : itf.next a.st with ⟨rc2, s2⟩
        rw [hnv] at hnc
        simp only at hnc
        cases hnc
        have := hnext a.st
        rw [hnv] at this
        exact this
      · cases hnc
        exact le_refl 0
    simp only
    rw [if_neg (by omega : ¬ rc1 < 0)]
    by_cases hz : rc1 = 0
    · rw [if_neg (not_not_intro hz)]
      rcases hlc : leaveCall itf a9 (top.enabled && !(top.entered == 0)) with ⟨a10, d2⟩
      exact ⟨tplAfter, rest, top.enabled, a10, d1 ++ d2, rfl⟩
    · rw [if_pos hz]
      exact ⟨top.again, top :: rest, enabled, a9, d1, rfl⟩
  · intro fuel en1 a1
    cases en1 <;> rfl

/-- Witness for C8: empty stack and a mismatched top frame both answer
`CLOSING`. -/
theorem c8_closing_name_match_witness :
    closeSection ampProv { st := (), nid := 0 } ['x'] [] [] true =
      (MUSTACH_ERROR_CLOSING, none, { st := (), nid := 0 }, []) ∧
    ¬ (['x'] : Str) = ['s'] ∧
    closeSection ampProv { st := (), nid := 0 } ['x'] []
        [{ name := ['s'], again := [], enabled := true, entered := 1 }] true =
      (MUSTACH_ERROR_CLOSING, none, { st := (), nid := 0 }, []) :=
  ⟨(c8_closing_name_match ampProv { st := (), nid := 0 } ['x'] [] true).1,
    by decide,
    (c8_closing_name_match ampProv { st := (), nid := 0 } ['x'] [] true).2.1
      { name := ['s'], again := [], enabled := true, entered := 1 } [] (by decide)⟩

/-- C5 counterexample: after switching delimiters to `<%`/`%>` (a close
delimiter that does not start with a brace), the tag `<%{x}%>` is not
rejected: it renders as unescaped interpolation of `x`, returning 0, not
`MUSTACH_ERROR_BAD_UNESCAPE_TAG`. -/
theorem c5_counterexample :
    fmustach ampProv 3
        ['{', '{', '=', '<', '%', ' ', '%', '>', '=', '}', '}',
         '<', '%', '{', 'x', '}', '%', '>'] () =
      some (0, { st := (), nid := 0 }, ['&'], [Ev.putE ['x'] false]) ∧
    ¬ (0 : Int) = MUSTACH_ERROR_BAD_UNESCAPE_TAG :=
  ⟨rfl, by decide⟩

/-- C5 (amended): the `{` unescape form is supported under every close
delimiter; which extra brace it demands depends on whether the close
delimiter consists solely of `}` bytes.  If it has any other byte, the
tag body must end with an extra `}` (stripped); if it is all braces, the
byte immediately after the close delimiter must be `}` (consumed).
Mismatch reports `MUSTACH_ERROR_BAD_UNESCAPE_TAG`. -/
theorem c5_amended_unescape_rule (cl body t : Str) :
    ((¬ ∀ ch ∈ cl, ch = '}') →
      unescape cl body t =
        (if body.getLast? = some '}' then some (body.dropLast, t) else none)) ∧
    ((∀ ch ∈ cl, ch = '}') →
      unescape cl body t =
        (if t.head? = some '}' then some (body, t.drop 1) else none)) := by
  constructor
  · intro hna
    have hlt : (cl.takeWhile (fun ch => ch == '}')).length < cl.length := by
      have hle := (List.takeWhile_prefix (l := cl) (fun ch => ch == '}')).length_le
      rcases lt_or_eq_of_le hle with hlt | hl
      · exact hlt
      · exfalso
        apply hna
        intro ch hm
        have heq : cl.takeWhile (fun ch => ch == '}') = cl :=
          (List.takeWhile_prefix _).eq_of_length hl
        have := List.takeWhile_eq_self_iff.mp heq ch hm
        simpa using this
    unfold unescape
    rw [if_pos hlt]
  · intro hall
    have heq : cl.takeWhile (fun ch => ch == '}') = cl :=
      List.takeWhile_eq_self_iff.mpr (fun ch hm => by simp [hall ch hm])
    unfold unescape
    rw [if_neg (by rw [heq]; omega)]

/-- Witness for the amended C5: under close delimiter `%>` the body
`{x}` (ending in a brace) is accepted with the brace stripped. -/
theorem c5_amended_unescape_rule_witness :
    (¬ ∀ ch ∈ (['%', '>'] : Str), ch = '}') ∧
    unescape ['%', '>'] ['{', 'x', '}'] [] =
      (if (['{', 'x', '}'] : Str).getLast? = some '}' then
        some ((['{', 'x', '}'] : Str).dropLast, ([] : Str))
      else none) :=
  ⟨by decide, (c5_amended_unescape_rule ['%', '>'] ['{', 'x', '}'] []).1 (by decide)⟩

theorem prep_nil {σ} (x : Option (Int × Aux σ × Str × List Ev)) : prep [] [] x = x := by
  cases x with
  | none => rfl
  | some r =>
    obtain ⟨rc, a, w, d⟩ := r
    simp [prep]

theorem dropWhile_append_all {p : Char → Bool} {l : List Char} (r : List Char)
    (h : ∀ a ∈ l, p a = true) : (l ++ r).dropWhile p = r.dropWhile p := by
  induction l with
  | nil => simp
  | cons a l ih =>
    simp only [List.cons_append, List.dropWhile_cons_of_pos (h a (by simp))]
    exact ih (fun b hb => h b (by simp [hb]))

theorem dropWhile_head_not {p : Char → Bool} {l rs : List Char} {r : Char}
    (h : l.dropWhile p = r :: rs) : p r = false := by
  induction l with
  | nil => cases h
  | cons a l ih =>
    by_cases hp : p a = true
    · rw [List.dropWhile_cons_of_pos hp] at h
      exact ih h
    · rw [List.dropWhile_cons_of_neg hp] at h
      injection h with h1 h2
      subst h1
      simpa using hp

theorem drop_takeWhile_len {α} (p : α → Bool) :
    ∀ l : List α, l.drop (l.takeWhile p).length = l.dropWhile p
  | [] => rfl
  | a :: l => by
    by_cases hp : p a = true
    · rw [List.takeWhile_cons_of_pos hp, List.dropWhile_cons_of_pos hp]
      simpa using drop_takeWhile_len p l
    · rw [List.takeWhile_cons_of_neg hp, List.dropWhile_cons_of_neg hp]
      rfl

/-- C4 counterexample: the delimiter-change body `=a b c=` holds three
whitespace-separated tokens, yet it is accepted: the open delimiter
becomes `a` and the close delimiter becomes `b c` (with its inner
space), instead of reporting `MUSTACH_ERROR_BAD_SEPARATORS`. -/
theorem c4_counterexample :
    sepChange ['=', 'a', ' ', 'b', ' ', 'c', '='] = some (['a'], ['b', ' ', 'c']) ∧
    ¬ (some (['a'], ['b', ' ', 'c']) : Option (Str × Str)) = none :=
  ⟨by decide, by decide⟩

/-- C4 (amended): a delimiter-change tag is accepted iff its raw body is
at least five bytes, ends in `=`, and between the sigils decomposes as a
possibly-empty non-whitespace run, a nonempty whitespace run, and a
nonempty remainder starting with a non-whitespace byte: the run before
the first whitespace (possibly empty) becomes the open delimiter and
everything after the first whitespace run (whitespace included) becomes
the close delimiter; all other bodies report bad separators.  The new
delimiters then drive the remainder of the invocation: one scan step on
a template headed by such a tag continues exactly as the remaining
template under the new delimiters. -/
theorem c4_separator_change (body o2 c2 : Str) :
    (sepChange body = some (o2, c2) ↔
      ∃ (x : Char) (w : Str) (ch : Char) (ct : Str),
        body = x :: (o2 ++ w ++ (ch :: ct)) ++ ['='] ∧
        c2 = ch :: ct ∧
        (∀ b ∈ o2, cIsspace b = false) ∧
        ¬ w = [] ∧ (∀ b ∈ w, cIsspace b = true) ∧
        cIsspace ch = false ∧
        3 ≤ (o2 ++ w ++ (ch :: ct)).length) ∧
    (∀ (σ : Type) (itf : Itf σ) (fuel : Nat) (op cl rest : Str) (stack : List Frame)
        (en : Bool) (a : Aux σ),
      strstr (op ++ (body ++ (cl ++ rest))) op =
        some ([], op ++ (body ++ (cl ++ rest))) →
      strstr (body ++ (cl ++ rest)) cl = some (body, cl ++ rest) →
      body.head? = some '=' →
      sepChange body = some (o2, c2) →
      processLoop itf (fuel + 1) (op ++ (body ++ (cl ++ rest))) op cl stack en a =
        processLoop itf fuel rest o2 c2 stack en a) := by
  constructor
  · constructor
    · -- forward: read the decomposition off the computation
      intro h
      unfold sepChange at h
      split at h
      · cases h
      · rename_i hok
        push_neg at hok
        obtain ⟨hlen5, hlast⟩ := hok
        rcases hbody : body with _ | ⟨x, ys⟩
        · subst hbody
          simp at hlen5
        · subst hbody
          have hys : ¬ ys = [] := by
            intro hc
            subst hc
            simp at hlen5
          obtain ⟨e, he⟩ : ∃ e, ys.getLast? = some e := by
            cases hy : ys.getLast? with
            | none => exact absurd (List.getLast?_eq_none_iff.mp hy) hys
            | some e => exact ⟨e, rfl⟩
          have hel : e = '=' := by
            have : (x :: ys).getLast? = some e := by
              cases ys with
              | nil => exact absurd rfl hys
              | cons y ys2 => rw [List.getLast?_cons_cons]; exact he
            rw [hlast] at this
            injection this with this
            exact this.symm
          subst hel
          have hsplit : ys.dropLast ++ ['='] = ys :=
            List.dropLast_append_getLast? '=' (by simpa using he)
          have hsplit : ys.dropLast ++ ['='] = ys :=
            List.dropLast_append_getLast? '=' (by simpa using he)
          simp only at h
          have hinner2 : ((x :: ys).drop 1).dropLast = ys.dropLast := by
            simp
          rw [hinner2] at h
          split at h
          · cases h
          · rename_i hne
            split at h
            · cases h
            · rename_i hrne
              simp only [Option.some.injEq, Prod.mk.injEq] at h
              obtain ⟨ho2, hc2x⟩ := h
              have hdroptw := drop_takeWhile_len (fun ch => !cIsspace ch) ys.dropLast
              rw [hdroptw] at hc2x hrne
              have htlen : (ys.dropLast.takeWhile (fun ch => !cIsspace ch)).length
                  ≤ ys.dropLast.length :=
                (List.takeWhile_prefix _).length_le
              have hr0ne : ¬ ys.dropLast.dropWhile (fun ch => !cIsspace ch) = [] := by
                intro hc
                apply hne
                have hTD := List.takeWhile_append_dropWhile (fun ch => !cIsspace ch) ys.dropLast
                rw [hc, List.append_nil] at hTD
                rw [hTD]
              rcases hr0 : ys.dropLast.dropWhile (fun ch => !cIsspace ch) with _ | ⟨r, rs⟩
              · exact absurd hr0 hr0ne
              · rw [hr0] at hrne hc2x
                have hrw : cIsspace r = true := by
                  have hqf := dropWhile_head_not hr0
                  simpa using hqf
                rcases hc2 : (r :: rs).dropWhile cIsspace with _ | ⟨ch, ct⟩
                · exact absurd hc2 hrne
                · refine ⟨x, (r :: rs).takeWhile cIsspace, ch, ct, ?_, ?_, ?_, ?_, ?_, ?_, ?_⟩
                  · -- body shape
                    have hin : ys.dropLast
                        = o2 ++ (r :: rs).takeWhile cIsspace ++ (ch :: ct) := by
                      conv_lhs =>
                        rw [← List.takeWhile_append_dropWhile (fun ch => !cIsspace ch)
                          ys.dropLast]
                      rw [ho2, hr0, List.append_assoc]
                      congr 1
                      conv_lhs => rw [← List.takeWhile_append_dropWhile cIsspace (r :: rs)]
                      rw [hc2]
                    rw [← hsplit, hin]
                    simp
                  · rw [← hc2x, hc2]
                  · intro b hb
                    have := List.mem_takeWhile_imp (ho2 ▸ hb)
                    simpa using this
                  · rw [List.takeWhile_cons_of_pos hrw]
                    simp
                  · intro b hb
                    exact List.mem_takeWhile_imp hb
                  · exact dropWhile_head_not hc2
                  · -- length bound
                    have hin : ys.dropLast
                        = o2 ++ (r :: rs).takeWhile cIsspace ++ (ch :: ct) := by
                      conv_lhs =>
                        rw [← List.takeWhile_append_dropWhile (fun ch => !cIsspace ch)
                          ys.dropLast]
                      rw [ho2, hr0, List.append_assoc]
                      congr 1
                      conv_lhs => rw [← List.takeWhile_append_dropWhile cIsspace (r :: rs)]
                      rw [hc2]
                    have hl2 : ys.length = ys.dropLast.length + 1 := by
                      conv_lhs => rw [← hsplit]
                      simp
                    simp only [List.length_cons] at hlen5
                    rw [← hin]
                    omega
    · -- backward: the decomposition computes
      rintro ⟨x, w, ch, ct, hb, hc2, ho, hwne, hw, hch, hlen⟩
      subst hb hc2
      unfold sepChange
      rw [if_neg ?hc]
      case hc =>
        push_neg
        constructor
        · simp only [List.length_append, List.length_cons, List.length_nil] at hlen ⊢
          omega
        · rw [show (x :: (o2 ++ w ++ (ch :: ct)) ++ ['=']) = ((x :: (o2 ++ w ++ (ch :: ct))) ++ ['=']) from by simp,
            List.getLast?_concat]
      have hinner : ((x :: (o2 ++ w ++ (ch :: ct)) ++ ['=']).drop 1).dropLast
          = o2 ++ w ++ (ch :: ct) := by
        have hstep : (x :: (o2 ++ w ++ (ch :: ct)) ++ ['=']).drop 1
            = (o2 ++ w ++ (ch :: ct)) ++ ['='] := rfl
        rw [hstep, List.dropLast_concat]
      rw [hinner]
      simp only
      rcases w with _ | ⟨w0, ws⟩
      · exact absurd rfl hwne
      · have hw0 : cIsspace w0 = true := hw w0 (by simp)
        have htok : (o2 ++ (w0 :: ws) ++ (ch :: ct)).takeWhile (fun b => !cIsspace b) = o2 := by
          rw [List.append_assoc, List.takeWhile_append_of_pos (by
            intro b hb
            simp [ho b hb])]
          simp only [List.cons_append]
          rw [List.takeWhile_cons_of_neg (by simp [hw0])]
          simp
        rw [htok]
        rw [if_neg (by
          intro hc
          simp only [List.length_append, List.length_cons] at hc
          omega)]
        have hdrop : (o2 ++ (w0 :: ws) ++ (ch :: ct)).drop o2.length
            = (w0 :: ws) ++ (ch :: ct) := by
          rw [List.append_assoc]
          exact List.drop_left _ _
        rw [hdrop]
        have hdw : ((w0 :: ws) ++ (ch :: ct)).dropWhile cIsspace = ch :: ct := by
          rw [dropWhile_append_all _ (fun b hb => hw b hb)]
          exact List.dropWhile_cons_of_neg (by simp [hch])
        rw [hdw]
        rw [if_neg (by simp)]
  · -- one scan step installs the new delimiters for the continuation
    intro σ itf fuel op cl rest stack en a h1 h2 h3 h4
    conv_lhs => rw [processLoop]
    rw [h1]
    simp only
    have hpe : preEmit itf a [] (en && !(([] : Str) == [])) = (MUSTACH_OK, a, [], []) := by
      unfold preEmit
      rw [if_neg (by simp)]
    rw [hpe]
    simp only
    rw [if_neg (by simp [MUSTACH_OK])]
    rw [List.drop_left, h2]
    simp only
    rw [List.drop_left]
    rcases hb : body with _ | ⟨b0, body2⟩
    · rw [hb] at h3
      cases h3
    · rw [hb] at h3
      injection h3 with h3
      subst h3
      subst hb
      simp only [List.cons_append, List.headD_cons]
      have hfs : firstSwitch cl '=' ('=' :: body2) rest
          = Except.ok ('=', '=' :: body2, rest) := by
        unfold firstSwitch
        rw [if_pos (Or.inr rfl)]
      rw [hfs]
      simp only
      rw [h4]
      simp only
      rw [prep_nil]

/-- Witness for the amended C4: `{{=<% %>=}}` is accepted, installs
`<%`/`%>`, and one scan step continues under the new delimiters. -/
theorem c4_separator_change_witness :
    sepChange ['=', '<', '%', ' ', '%', '>', '='] = some (['<', '%'], ['%', '>']) ∧
    processLoop ampProv 2
        (['{', '{'] ++ (['=', '<', '%', ' ', '%', '>', '='] ++ (['}', '}'] ++ [])))
        ['{', '{'] ['}', '}'] [] true { st := (), nid := 0 } =
      processLoop ampProv 1 [] ['<', '%'] ['%', '>'] [] true { st := (), nid := 0 } :=
  ⟨rfl,
    (c4_separator_change ['=', '<', '%', ' ', '%', '>', '='] ['<', '%'] ['%', '>']).2
      Unit ampProv 1 ['{', '{'] ['}', '}'] [] [] true { st := (), nid := 0 } rfl rfl rfl rfl⟩

theorem c7_cycle : ∀ (k n : Nat),
    processLoop iterProv (k + 3) bTpl7 dfltOp dfltCl [fr7] true { st := k, nid := n } =
      some (0, { st := 0, nid := n }, repL (k + 1) ['b'] ++ ['C'],
        repL k [Ev.nextE 1] ++ [Ev.nextE 0, Ev.leaveE])
  | 0, n => rfl
  | k + 1, n => by
    have ih := c7_cycle k n
    have estep : processLoop iterProv (k + 1 + 3) bTpl7 dfltOp dfltCl [fr7] true
          { st := k + 1, nid := n } =
        prep ['b'] ([] ++ [Ev.nextE 1])
          (processLoop iterProv (k + 3) bTpl7 dfltOp dfltCl [fr7] true { st := k, nid := n }) :=
      rfl
    rw [estep, ih]
    simp [prep, repL, List.append_assoc]

/-- C7: for the provider whose `next` answers positively exactly `k`
times before answering zero, the section `{{#s}}b{{/s}}` renders its
body exactly `k + 1` times, in template order and all before the
following content `C`; each positive `next` rewinds to the again-cursor,
and the zero answer triggers exactly one `leave` with the preceding
enabled flag restored (the trailing `C` is emitted). -/
theorem c7_section_iteration (k : Nat) :
    fmustach iterProv (k + 4) tpl7 k =
      some (MUSTACH_OK, { st := 0, nid := 0 },
        ['A'] ++ repL (k + 1) ['b'] ++ ['C'],
        Ev.enterE ['s'] 1 :: (repL k [Ev.nextE 1] ++ [Ev.nextE 0, Ev.leaveE])) := by
  have estep : fmustach iterProv (k + 4) tpl7 k =
      prep ['A'] ([] ++ [Ev.enterE ['s'] 1])
        (processLoop iterProv (k + 3) bTpl7 dfltOp dfltCl [fr7] true { st := k, nid := 0 }) :=
    rfl
  rw [estep, c7_cycle k 0]
  simp [prep, MUSTACH_OK, List.append_assoc]

theorem prep_prep {σ} (w1 : Str) (d1 : List Ev) (w2 : Str) (d2 : List Ev)
    (x : Option (Int × Aux σ × Str × List Ev)) :
    prep w1 d1 (prep w2 d2 x) = prep (w1 ++ w2) (d1 ++ d2) x := by
  cases x with
  | none => rfl
  | some r =>
    obtain ⟨rc, a, w, d⟩ := r
    simp [prep]

/-- One scan step on a template headed by the opening tag, reduced to
the outcome of `openSection` on a symbolic stack. -/
theorem step_open {σ} (itf : Itf σ) (fuel : Nat) (X : Str) (stack : List Frame) (a : Aux σ) :
    processLoop itf (fuel + 1) (opTag ++ X) dfltOp dfltCl stack true a =
      openCont itf fuel X (openSection itf a '#' ['s'] X stack true) := by
  rw [processLoop]
  have hs1 : strstr (opTag ++ X) dfltOp = some ([], opTag ++ X) := rfl
  rw [hs1]
  simp only
  have hpe : preEmit itf a [] (true && !(([] : Str) == [])) = (MUSTACH_OK, a, [], []) := rfl
  rw [hpe]
  simp only
  rw [if_neg (by simp [MUSTACH_OK])]
  have hs2 : strstr ((opTag ++ X).drop dfltOp.length) dfltCl
      = some (['#', 's'], ['}', '}'] ++ X) := rfl
  rw [hs2]
  simp only
  have hfs : firstSwitch dfltCl (((opTag ++ X).drop dfltOp.length).headD (Char.ofNat 0))
      ['#', 's'] ((['}', '}'] ++ X).drop dfltCl.length) = Except.ok ('#', ['s'], X) := rfl
  rw [hfs]
  simp only
  rcases h2 : openSection itf a '#' ['s'] X stack true with ⟨rc, o, a3, d3⟩
  rcases o with _ | ⟨stack2, en2⟩
  · simp [openCont]
  · simp [openCont]

/-- One scan step on a template headed by the closing tag, reduced to
the outcome of `closeSection` on a symbolic stack. -/
theorem step_close {σ} (itf : Itf σ) (fuel : Nat) (X : Str) (stack : List Frame) (a : Aux σ) :
    processLoop itf (fuel + 1) (clTag ++ X) dfltOp dfltCl stack true a =
      closeCont itf fuel (closeSection itf a ['s'] X stack true) := by
  rw [processLoop]
  have hs1 : strstr (clTag ++ X) dfltOp = some ([], clTag ++ X) := rfl
  rw [hs1]
  simp only
  have hpe : preEmit itf a [] (true && !(([] : Str) == [])) = (MUSTACH_OK, a, [], []) := rfl
  rw [hpe]
  simp only
  rw [if_neg (by simp [MUSTACH_OK])]
  have hs2 : strstr ((clTag ++ X).drop dfltOp.length) dfltCl
      = some (['/', 's'], ['}', '}'] ++ X) := rfl
  rw [hs2]
  simp only
  have hfs : firstSwitch dfltCl (((clTag ++ X).drop dfltOp.length).headD (Char.ofNat 0))
      ['/', 's'] ((['}', '}'] ++ X).drop dfltCl.length) = Except.ok ('/', ['s'], X) := rfl
  rw [hfs]
  simp only
  rcases h2 : closeSection itf a ['s'] X stack true with ⟨rc, o, a3, d3⟩
  rcases o with _ | ⟨tpl3, stack2, en2⟩
  · simp [closeCont]
  · simp [closeCont]

theorem c9_scope : ∀ (k fuel : Nat) (rest : Str) (stack : List Frame) (a : Aux Unit),
    stack.length + k ≤ 256 →
    processLoop nestProv (2 * k + fuel) (opsN k ++ (clsN k ++ rest)) dfltOp dfltCl stack true a =
      prep [] (devN k) (processLoop nestProv fuel rest dfltOp dfltCl stack true a)
  | 0, fuel, rest, stack, a => by
    intro _h
    rw [show 2 * 0 + fuel = fuel from by omega]
    rw [show opsN 0 ++ (clsN 0 ++ rest) = rest from rfl]
    rw [show devN 0 = [] from rfl, prep_nil]
  | k + 1, fuel, rest, stack, a => by
    intro h
    have htpl : opsN (k + 1) ++ (clsN (k + 1) ++ rest)
        = opTag ++ (opsN k ++ (clsN k ++ (clTag ++ rest))) := by
      simp [opsN, clsN, List.append_assoc]
    rw [htpl]
    rw [show 2 * (k + 1) + fuel = (2 * k + (fuel + 1)) + 1 from by omega]
    have hd : ¬ stack.length = DEPTH_MAX := by
      simp only [DEPTH_MAX]
      omega
    have hos : openSection nestProv a '#' ['s'] (opsN k ++ (clsN k ++ (clTag ++ rest))) stack true
        = (MUSTACH_OK,
           some ({ name := ['s'], again := opsN k ++ (clsN k ++ (clTag ++ rest)),
                   enabled := true, entered := 1 } :: stack, true),
           a, [Ev.enterE ['s'] 1]) := by
      unfold openSection
      rw [if_neg hd]
      rfl
    rw [step_open nestProv (2 * k + (fuel + 1)) (opsN k ++ (clsN k ++ (clTag ++ rest))) stack a,
      hos]
    simp only [openCont]
    have ih := c9_scope k (fuel + 1) (clTag ++ rest)
      ({ name := ['s'], again := opsN k ++ (clsN k ++ (clTag ++ rest)),
         enabled := true, entered := 1 } :: stack) a
      (by simp only [List.length_cons]; omega)
    rw [ih]
    have hcs : closeSection nestProv a ['s'] rest
        ({ name := ['s'], again := opsN k ++ (clsN k ++ (clTag ++ rest)),
           enabled := true, entered := 1 } :: stack) true
        = (MUSTACH_OK, some (rest, stack, true), a, [Ev.nextE 0, Ev.leaveE]) := rfl
    rw [step_close nestProv fuel rest
      ({ name := ['s'], again := opsN k ++ (clsN k ++ (clTag ++ rest)),
         enabled := true, entered := 1 } :: stack) a, hcs]
    simp only [closeCont]
    rw [prep_prep, prep_prep]
    simp [devN]

theorem c9_deep : ∀ (j f : Nat) (rest : Str) (stack : List Frame) (a : Aux Unit),
    stack.length = 256 - j → j ≤ 256 →
    processLoop nestProv ((j + 1) + f) (opsN (j + 1) ++ rest) dfltOp dfltCl stack true a =
      some (MUSTACH_ERROR_TOO_DEEP, a, [], devO j)
  | 0, f, rest, stack, a => by
    intro hl _
    have hd : stack.length = DEPTH_MAX := by
      simp only [DEPTH_MAX]
      omega
    have hos : openSection nestProv a '#' ['s'] (opsN 0 ++ rest) stack true
        = (MUSTACH_ERROR_TOO_DEEP, none, a, []) := by
      unfold openSection
      rw [if_pos hd]
    have htpl : opsN 1 ++ rest = opTag ++ (opsN 0 ++ rest) := by
      simp [opsN, List.append_assoc]
    rw [htpl, show (0 + 1) + f = f + 1 from by omega,
      step_open nestProv f (opsN 0 ++ rest) stack a, hos]
    simp [openCont, devO]
  | j + 1, f, rest, stack, a => by
    intro hl hj
    have hd : ¬ stack.length = DEPTH_MAX := by
      simp only [DEPTH_MAX]
      omega
    have hos : openSection nestProv a '#' ['s'] (opsN (j + 1) ++ rest) stack true
        = (MUSTACH_OK,
           some ({ name := ['s'], again := opsN (j + 1) ++ rest,
                   enabled := true, entered := 1 } :: stack, true),
           a, [Ev.enterE ['s'] 1]) := by
      unfold openSection
      rw [if_neg hd]
      rfl
    have htpl : opsN (j + 2) ++ rest = opTag ++ (opsN (j + 1) ++ rest) := by
      simp [opsN, List.append_assoc]
    rw [htpl, show ((j + 2) + f) = (((j + 1) + f) + 1) from by omega,
      step_open nestProv ((j + 1) + f) (opsN (j + 1) ++ rest) stack a, hos]
    simp only [openCont]
    have ih := c9_deep j f rest
      ({ name := ['s'], again := opsN (j + 1) ++ rest,
         enabled := true, entered := 1 } :: stack) a
      (by simp only [List.length_cons]; omega) (by omega)
    rw [ih]
    simp [prep, devO]

/-- C9: with a provider that always enters, a template of `N ≤ 256`
well-nested sections renders successfully through the full section
machinery (every section entered and left); with 257 nested sections
the 257th opening tag reports `MUSTACH_ERROR_TOO_DEEP` before its
`enter` is consulted, after exactly 256 successful entries. -/
theorem c9_nesting_depth :
    (∀ N, N ≤ 256 →
      fmustach nestProv (2 * N + 1) (nestT N) () =
        some (MUSTACH_OK, { st := (), nid := 0 }, [], devN N)) ∧
    fmustach nestProv 600 (nestT 257) () =
      some (MUSTACH_ERROR_TOO_DEEP, { st := (), nid := 0 }, [], devO 256) := by
  constructor
  · intro N hN
    have h := c9_scope N 1 [] [] { st := (), nid := 0 } (by simpa using hN)
    have hstart : fmustach nestProv (2 * N + 1) (opsN N ++ (clsN N ++ [])) () =
        processLoop nestProv (2 * N + 1) (opsN N ++ (clsN N ++ [])) dfltOp dfltCl []
          true { st := (), nid := 0 } := rfl
    rw [show nestT N = opsN N ++ (clsN N ++ []) from by simp [nestT], hstart, h]
    have hbase : processLoop nestProv 1 [] dfltOp dfltCl [] true
        ({ st := (), nid := 0 } : Aux Unit) =
        some (MUSTACH_OK, { st := (), nid := 0 }, [], []) := rfl
    rw [hbase]
    simp [prep]
  · exact c9_deep 256 343 (clsN 257) [] { st := (), nid := 0 } (by simp) (by omega)

/-- Witness for C9 at depth 1. -/
theorem c9_nesting_depth_witness :
    1 ≤ 256 ∧
    fmustach nestProv 3 (nestT 1) () =
      some (MUSTACH_OK, { st := (), nid := 0 }, [], devN 1) :=
  ⟨by decide, c9_nesting_depth.1 1 (by decide)⟩
